import Mathlib

/-!
Verification development for the HIL training-orchestration server.

The Python source is shallowly embedded: directories become finite sets or
maps from file names to contents, the mutable training-status dictionary
becomes a structure that is threaded explicitly, exceptions become
`Except`, and the GPU-bound epoch loop is abstracted by a list of per-epoch
events (metrics produced, cancellation observed, or failure raised) — all
orchestration code around that loop is translated directly from the source.
Floats are modelled as rationals.
-/

namespace HilServer

/-! ## Configuration constants (config.py) -/

def MIN_IMAGES_FOR_TRAINING : Nat := 2

def N_FOLDS : Nat := 5

/-! ## Data partition manager (data_manager.py)

A directory is modelled as a map from file name to file contents
(`String → Option Bytes`); `none` means the file does not exist. -/

def Bytes : Type := List Nat

/-- The four data directories managed by `DataManager`: the curated
`completed` partition and the writable `unannotated` (inbox) partition,
each holding an images directory and a mask directory. -/
structure Store where
  compImgs : String → Option Bytes
  compAnns : String → Option Bytes
  inboxImgs : String → Option Bytes
  inboxAnns : String → Option Bytes

/-- DataManager.save_annotation: refuse unless `imageId` names an existing
file in unannotated/images/ (raising ValueError before any write);
otherwise write the mask into unannotated/annotations/, overwriting any
prior file of that name.  An error carries no new store: the raise happens
before the write, so the file sets are untouched. -/
def saveAnnot (st : Store) (imageId : String) (data : Bytes) : Except String Store :=
  match st.inboxImgs imageId with
  | none => .error ("Image not found in unannotated images; cannot save for completed or non-existent images")
  | some _ => .ok { st with inboxAnns := fun x => if x = imageId then some data else st.inboxAnns x }

/-! ## Directory listings and statistics (data_manager.py)

`_list_png` filters a directory listing to names ending in ".png"
(case-insensitively).  For the counting claims a directory is modelled as
the finite set of its file names. -/

/-- The check performed by `_list_png`: the lower-cased name ends in ".png". -/
def isPngName (s : String) : Bool :=
  List.isSuffixOf (String.toList (".png")) (s.toList.map Char.toLower)

/-- The `.png` members of a directory, as `_list_png` returns them. -/
def pngOnly (s : Finset String) : Finset String := s.filter (fun f => isPngName f)

/-- The four directory listings, as finite sets of file names. -/
structure DirState where
  compImgs : Finset String
  compAnns : Finset String
  inboxImgs : Finset String
  inboxAnns : Finset String

/-- The `total_training_pairs` field of `DataManager.get_stats`:
completed-annotation count plus the count of inbox annotations whose name
also appears among the inbox images. -/
def statsTotalPairs (d : DirState) : Nat :=
  (pngOnly d.compAnns).card
    + ((pngOnly d.inboxAnns).filter (fun f => f ∈ pngOnly d.inboxImgs)).card

/-- The number of pairs returned by `DataManager.get_all_training_pairs`:
completed images having a completed annotation, plus inbox images having
an inbox annotation. -/
def trainingPairsCount (d : DirState) : Nat :=
  ((pngOnly d.compImgs).filter (fun f => f ∈ pngOnly d.compAnns)).card
    + ((pngOnly d.inboxImgs).filter (fun f => f ∈ pngOnly d.inboxAnns)).card

/-! ## Fold splitting (trainer.py `_make_folds`)

`folds[i % n_folds].append(pair)` is modelled with an in-place update of
one entry of a list of lists. -/

/-- Apply `f` to the element at position `j` (identity when out of range). -/
def modifyIdx (f : α → α) : Nat → List α → List α
  | _, [] => []
  | 0, a :: as => f a :: as
  | j + 1, a :: as => a :: modifyIdx f j as

/-- The enumerated loop of `_make_folds`: element at index `i` is appended
to fold `i % n_folds`. -/
def makeFoldsGo (nFolds : Nat) : Nat → List α → List (List α) → List (List α)
  | _, [], folds => folds
  | i, x :: xs, folds => makeFoldsGo nFolds (i + 1) xs (modifyIdx (fun f => f ++ [x]) (i % nFolds) folds)

/-- trainer._make_folds: start from `n_folds` empty folds and distribute
the pairs round-robin. -/
def makeFolds (allPairs : List α) (nFolds : Nat) : List (List α) :=
  makeFoldsGo nFolds 0 allPairs (List.replicate nFolds [])

/-- Number of indices `i < t` with `i % k = j` (the size fold `j` reaches
after `t` round-robin insertions). -/
def rrCount (k j : Nat) : Nat → Nat
  | 0 => 0
  | t + 1 => rrCount k j t + (if t % k = j then 1 else 0)

/-! ## Version identifiers (version_manager.py `get_next_version`)

`f-string` zero-padding and the `^v(\d-3-or-more)$` scan are modelled on
character lists. -/

/-- Decimal digit character for a value below ten. -/
def decDigit (m : Nat) : Char := Char.ofNat (48 + m)

/-- Numeric value of a digit character. -/
def digitVal (c : Char) : Nat := c.toNat - 48

/-- Decimal digits of `n`, most significant first; fuel-driven so that it
computes by kernel reduction. -/
def natDigitsAux : Nat → Nat → List Char
  | 0, _ => []
  | fuel + 1, n =>
    if n < 10 then [decDigit n]
    else natDigitsAux fuel (n / 10) ++ [decDigit (n % 10)]

/-- Decimal digits of `n`. -/
def natDigits (n : Nat) : List Char := natDigitsAux (n + 1) n

/-- The identifier written by the f-string with a 03d format: the letter v
followed by the decimal digits of `n`, zero-padded to at least three. -/
def fmtVersion (n : Nat) : String :=
  let ds := natDigits n
  String.mk ('v' :: (List.replicate (3 - ds.length) ('0') ++ ds))

/-- The regex scan on the character list: the name matches when it is the
letter v followed by three or more digits; the captured group is read as a
decimal number (leading zeros allowed, as for Python int). -/
def parseVersionChars : List Char → Option Nat
  | [] => none
  | c :: ds =>
    if c = 'v' ∧ 3 ≤ ds.length ∧ (∀ ch ∈ ds, ch.isDigit) then
      some (ds.foldl (fun a ch => 10 * a + digitVal ch) 0)
    else none

/-- The regex scan of `get_next_version` (`^v(\d{3,})$`). -/
def parseVersionName (s : String) : Option Nat :=
  parseVersionChars s.toList

/-- One step of the scan: fold a parsed version number into the running
maximum, skipping names the regex rejects. -/
def maxVerStep (acc : Nat) (name : String) : Nat :=
  match parseVersionName name with
  | some k => max acc k
  | none => acc

/-- Maximum parsed version number among the directory names, with Python's
`max(existing, default=0)` behaviour. -/
def maxVersionNum (names : List String) : Nat :=
  names.foldl maxVerStep 0

/-- version_manager.get_next_version: scan the names under versions/ and
format the successor of the largest existing number. -/
def getNextVersion (names : List String) : String :=
  fmtVersion (maxVersionNum names + 1)

/-! ## Version records and artifacts (version_manager.py)

`training_log.json` is modelled as a structure; the hyperparameter block,
which holds only config constants, is represented by the one value the
claims mention (`max_epochs_per_fold` is threaded where needed).
Timestamps are abstract `Nat` clock readings. -/

/-- Rounding to six decimal places, Python's `round(x, 6)` on the rational
model of floats. -/
def round6 (q : ℚ) : ℚ := (round (q * 1000000) : ℤ) / 1000000

/-- A saved checkpoint file: the dict written by `torch.save` in
`_train_single_fold` (weights abstracted away, bookkeeping kept). -/
structure Ckpt where
  epoch : Nat
  best_dice : ℚ
  fold_idx : Nat
deriving DecidableEq

/-- One entry of a fold's `epochs` history. -/
structure EpochRec where
  epoch : Nat
  train_loss : ℚ
  val_dice : ℚ
deriving DecidableEq

/-- One entry of the record's `folds` list. -/
structure FoldLog where
  fold_idx : Nat
  train_count : Nat
  val_count : Nat
  best_dice : ℚ
  best_epoch : Nat
  epochs : List EpochRec
deriving DecidableEq

/-- The aggregate `results` block written by `finalize_version`. -/
structure RunResults where
  mean_dice : ℚ
  fold_dices : List ℚ
  best_fold_idx : Int
  best_fold_dice : ℚ
deriving DecidableEq

/-- The training-run record (`training_log.json`). -/
structure VersionLog where
  version : String
  started_at : Nat
  completed_at : Option Nat
  status : String
  dataset_pairs : Nat
  results : Option RunResults
  folds : List FoldLog
deriving DecidableEq

/-- version_manager.create_version_log. -/
def createVersionLog (version : String) (trainingPairs : List (String × String))
    (now : Nat) : VersionLog :=
  { version := version
    started_at := now
    completed_at := none
    status := ("running")
    dataset_pairs := trainingPairs.length
    results := none
    folds := (List.range N_FOLDS).map (fun i => ⟨i, 0, 0, 0, 0, []⟩) }

/-- version_manager.set_fold_split_info. -/
def setFoldSplitInfo (log : VersionLog) (foldIdx trainCount valCount : Nat) : VersionLog :=
  let upd := fun (f : FoldLog) => { f with train_count := trainCount, val_count := valCount }
  { log with folds := modifyIdx upd foldIdx log.folds }

/-- version_manager.record_epoch: append the epoch metrics (rounded) and
update the fold's best score when strictly improved. -/
def recordEpoch (log : VersionLog) (foldIdx epoch : Nat) (trainLoss valDice : ℚ) : VersionLog :=
  let upd := fun (f : FoldLog) =>
    let f2 := { f with epochs := f.epochs ++ [⟨epoch, round6 trainLoss, round6 valDice⟩] }
    if f2.best_dice < valDice then { f2 with best_dice := round6 valDice, best_epoch := epoch }
    else f2
  { log with folds := modifyIdx upd foldIdx log.folds }

/-- Python list indexing, including the negative-index convention
(`l[-1]` is the last element); out-of-range reads default to zero here —
they are unreachable in the flows modelled below. -/
def pyGet (l : List ℚ) (i : Int) : ℚ :=
  if 0 ≤ i then l.getD i.toNat 0 else l.getD (l.length - (-i).toNat) 0

/-- One version directory under versions/: the copied fold checkpoints,
the copied promoted checkpoint, and the record document. -/
structure VersionDir where
  foldCkpts : Nat → Option Ckpt
  bestCkpt : Option Ckpt
  logFile : Option VersionLog

/-- A directory with no files, as `os.makedirs` creates it. -/
def emptyVersionDir : VersionDir :=
  { foldCkpts := fun _ => none, bestCkpt := none, logFile := none }

/-- The live current_pt/ slot: the per-fold checkpoints and best.pt. -/
structure Files where
  foldPt : Nat → Option Ckpt
  bestPt : Option Ckpt

/-- Look a version directory up by name (filesystem semantics: at most one
entry per name; for robustness the first match is taken). -/
def lookupDir (vs : List (String × VersionDir)) (name : String) : Option VersionDir :=
  (vs.find? (fun p => p.1 = name)).map (fun p => p.2)

/-- Write a version directory back: replace the entry of that name, or
append a fresh one. -/
def updateVersions (vs : List (String × VersionDir)) (name : String) (d : VersionDir) :
    List (String × VersionDir) :=
  if vs.any (fun p => p.1 = name) then vs.map (fun p => if p.1 = name then (name, d) else p)
  else vs ++ [(name, d)]

/-- version_manager.finalize_version: create the version directory, copy
every existing fold checkpoint and best.pt into it, attach the aggregate
results block, stamp status and completion time, and write the record. -/
def finalizeVersion (now : Nat) (version : String) (log : VersionLog)
    (foldDices : List ℚ) (bestFoldIdx : Int) (status : String)
    (files : Files) (vs : List (String × VersionDir)) : List (String × VersionDir) :=
  let d0 := (lookupDir vs version).getD emptyVersionDir
  let d1 : VersionDir :=
    { d0 with foldCkpts := fun i =>
        if i < N_FOLDS then
          match files.foldPt i with
          | some c => some c
          | none => d0.foldCkpts i
        else d0.foldCkpts i }
  let d2 : VersionDir :=
    { d1 with bestCkpt :=
        match files.bestPt with
        | some c => some c
        | none => d1.bestCkpt }
  let meanDice : ℚ := if foldDices.isEmpty then 0 else foldDices.sum / (foldDices.length : ℚ)
  let results : RunResults :=
    { mean_dice := round6 meanDice
      fold_dices := foldDices.map round6
      best_fold_idx := bestFoldIdx
      best_fold_dice := if foldDices.isEmpty then 0 else round6 (pyGet foldDices bestFoldIdx) }
  let log2 := { log with results := some results, status := status, completed_at := some now }
  updateVersions vs version { d2 with logFile := some log2 }

/-- Summary entry returned by `list_all_versions`. -/
structure VersionSummary where
  version : String
  status : String
  started_at : Option Nat
  completed_at : Option Nat
  mean_dice : Option ℚ
  best_fold_dice : Option ℚ
  best_fold_idx : Option Int
  completed_pairs : Option Nat
deriving DecidableEq

/-- Summary of a version whose record was read successfully. -/
def mkSummary (name : String) (lg : VersionLog) : VersionSummary :=
  { version := name
    status := lg.status
    started_at := some lg.started_at
    completed_at := lg.completed_at
    mean_dice := lg.results.map (fun r => r.mean_dice)
    best_fold_dice := lg.results.map (fun r => r.best_fold_dice)
    best_fold_idx := lg.results.map (fun r => r.best_fold_idx)
    completed_pairs := some lg.dataset_pairs }

/-- Summary of a version directory whose record file is missing. -/
def unknownSummary (name : String) : VersionSummary :=
  { version := name
    status := ("unknown")
    started_at := none
    completed_at := none
    mean_dice := none
    best_fold_dice := none
    best_fold_idx := none
    completed_pairs := none }

/-- Insertion step for the name-sorted listing. -/
def insertSorted (le : α → α → Bool) (x : α) : List α → List α
  | [] => [x]
  | y :: ys => if le x y then x :: y :: ys else y :: insertSorted le x ys

/-- Insertion sort (models Python's `sorted`; only the permutation property
matters for the claims below). -/
def sortPairs (le : α → α → Bool) : List α → List α
  | [] => []
  | x :: xs => insertSorted le x (sortPairs le xs)

/-- Name order used to sort directory entries. -/
def nameLe (a b : String × VersionDir) : Bool := (compare a.1 b.1).isLE

/-- version_manager.list_all_versions: names matching the version regex,
in sorted order; a directory lacking its record is still listed with
status unknown. -/
def listAllVersions (vs : List (String × VersionDir)) : List VersionSummary :=
  (sortPairs nameLe vs).filterMap (fun nd =>
    match parseVersionName nd.1 with
    | none => none
    | some _ =>
      match nd.2.logFile with
      | none => some (unknownSummary nd.1)
      | some lg => some (mkSummary nd.1 lg))

/-! ## Training engine (trainer.py)

The GPU-bound body of one epoch is abstracted by an `EpochEvent`: either
the epoch ran and produced (train loss, validation dice), or the
cancellation flag was observed set at the top of the epoch, or an
exception was raised during the epoch.  Everything the orchestration does
with those outcomes is translated from the source. -/

/-- Outcome of one epoch attempt inside `_train_single_fold`. -/
inductive EpochEvent where
  | metrics (loss : ℚ) (dice : ℚ)
  | cancelHit
  | trainFail
deriving DecidableEq

/-- An abrupt exit of the training loop: the `TrainingCancelled` exception
or any other exception. -/
inductive RunErr where
  | cancelled
  | failed
deriving DecidableEq

/-- Live system state shared by trainer, version store and inference
engine: the current_pt/ files, the versions/ tree, and the inference
engine's lazily loaded ensemble (`_models`, `_models_loaded`). -/
structure SysState where
  files : Files
  versions : List (String × VersionDir)
  infModels : List Ckpt
  infLoaded : Bool

/-- inference.reload_model: clear the loaded ensemble so the next
inference reloads from the currently promoted artifacts. -/
def reloadModel (st : SysState) : SysState :=
  { st with infModels := [], infLoaded := false }

/-- Result of `_train_single_fold`: the returned best dice or the raised
exception, together with the files and record as mutated so far. -/
structure FoldOut where
  res : Except RunErr ℚ
  files : Files
  log : VersionLog

/-- The epoch loop of `_train_single_fold`: check cancellation at the top
of the epoch, run the epoch, record its metrics, and save the fold
checkpoint whenever the validation dice strictly improves the running
best. -/
def trainFoldLoop (foldIdx : Nat) (evs : List EpochEvent) (epoch : Nat) (best : ℚ)
    (files : Files) (log : VersionLog) : FoldOut :=
  match evs with
  | [] => ⟨.ok best, files, log⟩
  | .cancelHit :: _ => ⟨.error .cancelled, files, log⟩
  | .trainFail :: _ => ⟨.error .failed, files, log⟩
  | .metrics loss dice :: rest =>
    let log2 := recordEpoch log foldIdx epoch loss dice
    if best < dice then
      let files2 : Files :=
        { files with foldPt := fun j =>
            if j = foldIdx then some ⟨epoch, dice, foldIdx⟩ else files.foldPt j }
      trainFoldLoop foldIdx rest (epoch + 1) dice files2 log2
    else
      trainFoldLoop foldIdx rest (epoch + 1) best files log2

/-- Result of the fold loop of `train_model`: the accumulated per-fold
dices and best-fold tracking, or the exception that interrupted it. -/
structure FoldsOut where
  err : Option RunErr
  dices : List ℚ
  bestIdx : Int
  bestDice : ℚ
  files : Files
  log : VersionLog

/-- The `for fold_idx in range(N_FOLDS)` loop of `train_model`: record the
fold's split sizes, train the fold from a fresh best of zero, append its
best dice, and track the best fold with a strict comparison. -/
def runFolds (folds : List (List (String × String))) (evss : List (List EpochEvent))
    (i : Nat) (dices : List ℚ) (bIdx : Int) (bDice : ℚ)
    (files : Files) (log : VersionLog) : FoldsOut :=
  match evss with
  | [] => ⟨none, dices, bIdx, bDice, files, log⟩
  | evs :: rest =>
    let valPairs := folds.getD i []
    let trainPairsFold :=
      (((List.range N_FOLDS).filter (fun j => j ≠ i)).map (fun j => folds.getD j [])).flatten
    let log1 := setFoldSplitInfo log i trainPairsFold.length valPairs.length
    let fo := trainFoldLoop i evs 1 0 files log1
    match fo.res with
    | .error e => ⟨some e, dices, bIdx, bDice, fo.files, fo.log⟩
    | .ok d =>
      let dices2 := dices ++ [d]
      if bDice < d then runFolds folds rest (i + 1) dices2 (Int.ofNat i) d fo.files fo.log
      else runFolds folds rest (i + 1) dices2 bIdx bDice fo.files fo.log

/-- The exceptions observable from `train_model`: the insufficient-data
ValueError raised before a version is allocated, cancellation, or any
other error. -/
inductive TrainErr where
  | insufficientData
  | cancelled
  | runFailed
deriving DecidableEq

/-- trainer.train_model: check the minimum pair count, allocate the next
version, create the run record, split the (already shuffled) pairs into
folds, run the folds, promote the best fold's checkpoint to best.pt and
invalidate the inference ensemble on success, and finalize the version on
every exit path with the status matching the outcome.  `evss` abstracts
the per-epoch outcomes of each fold; `random.shuffle` is modelled by
taking the pair list as already shuffled (no claim depends on the order). -/
def trainModel (pairs : List (String × String)) (evss : List (List EpochEvent))
    (st : SysState) (now : Nat) : Except TrainErr (ℚ × String) × SysState :=
  if pairs.length < MIN_IMAGES_FOR_TRAINING then (.error .insufficientData, st)
  else
    let version := getNextVersion (st.versions.map (fun p => p.1))
    let log0 := createVersionLog version pairs now
    let folds := makeFolds pairs N_FOLDS
    let evssP := (List.range N_FOLDS).map (fun i => evss.getD i [])
    let fo := runFolds folds evssP 0 [] (-1) 0 st.files log0
    match fo.err with
    | some .cancelled =>
      let vs2 := finalizeVersion now version fo.log fo.dices (max fo.bestIdx 0) ("cancelled") fo.files st.versions
      (.error .cancelled, { st with files := fo.files, versions := vs2 })
    | some .failed =>
      let vs2 := finalizeVersion now version fo.log fo.dices (max fo.bestIdx 0) ("error") fo.files st.versions
      (.error .runFailed, { st with files := fo.files, versions := vs2 })
    | none =>
      let files2 :=
        if 0 ≤ fo.bestIdx then
          match fo.files.foldPt fo.bestIdx.toNat with
          | some c => { fo.files with bestPt := some c }
          | none => fo.files
        else fo.files
      let st2 := reloadModel { st with files := files2 }
      let meanDice : ℚ := fo.dices.sum / (fo.dices.length : ℚ)
      let vs2 := finalizeVersion now version fo.log fo.dices fo.bestIdx ("completed") files2 st2.versions
      (.ok (meanDice, version), { st2 with versions := vs2 })

/-- version_manager.restore_version: fail when the version directory is
absent; otherwise copy the version's existing fold checkpoints and best.pt
back into current_pt/ and invalidate the inference ensemble.  Only the
directory's existence is checked. -/
def restoreVersion (version : String) (st : SysState) : Except String SysState :=
  match lookupDir st.versions version with
  | none => .error ("version not found")
  | some d =>
    let files1 : Files :=
      { st.files with foldPt := fun i =>
          if i < N_FOLDS then
            match d.foldCkpts i with
            | some c => some c
            | none => st.files.foldPt i
          else st.files.foldPt i }
    let files2 : Files :=
      { files1 with bestPt :=
          match d.bestCkpt with
          | some c => some c
          | none => files1.bestPt }
    .ok (reloadModel { st with files := files2 })

/-- True when an `Except` result is a success. -/
def isOkE : Except ε α → Bool
  | .ok _ => true
  | .error _ => false

/-! ## Training orchestrator (main.py)

The module-level `training_status` dict and the cancel event, with the
`/train` handler and the background task.  The lock only serializes the
dictionary updates; the state transitions it guards are modelled
directly. -/

/-- The global `training_status` dictionary. -/
structure TrainingStatusS where
  status : String
  epoch : Nat
  maxEpochs : Nat
  bestDice : ℚ
  currentFold : Nat
  nFolds : Nat
  startedAt : Option Nat
  completedAt : Option Nat
  err : Option String
  version : Option String
deriving DecidableEq

/-- Responses of the `/train` handler. -/
inductive StartResp where
  | insufficientData
  | alreadyRunning
  | started
deriving DecidableEq

/-- HTTP status code of each `/train` response. -/
def respHttpCode : StartResp → Nat
  | .insufficientData => 400
  | .alreadyRunning => 409
  | .started => 200

/-- Result of the `/train` handler: the response, the updated global
status, the cancel-event flag, and whether the background training task
was scheduled (the handler returns immediately either way; the scheduled
task runs later as `runTrainingTask`). -/
structure StartOut where
  resp : StartResp
  ts : TrainingStatusS
  cancelFlag : Bool
  scheduled : Bool
deriving DecidableEq

/-- main.start_training: reject with 400 when fewer than
MIN_IMAGES_FOR_TRAINING pairs exist, with 409 when a run is already
`running`; otherwise set the status to `running` with reset progress
counters, clear the cancel event, and schedule the background task. -/
def startTraining (pairs : List (String × String)) (maxEpochs : Nat)
    (ts : TrainingStatusS) (cancelFlag : Bool) (now : Nat) : StartOut :=
  if pairs.length < MIN_IMAGES_FOR_TRAINING then ⟨.insufficientData, ts, cancelFlag, false⟩
  else if ts.status = ("running") then ⟨.alreadyRunning, ts, cancelFlag, false⟩
  else
    ⟨.started,
      { ts with
          status := ("running")
          epoch := 0
          maxEpochs := N_FOLDS * maxEpochs
          bestDice := 0
          currentFold := 0
          nFolds := N_FOLDS
          startedAt := some now
          completedAt := none
          err := none },
      false, true⟩

/-- main.run_training_task: run the trainer and stamp the terminal status;
TrainingCancelled maps to `cancelled`, any other exception to `error`,
success to `completed`. -/
def runTrainingTask (pairs : List (String × String)) (evss : List (List EpochEvent))
    (sys : SysState) (ts : TrainingStatusS) (now : Nat) : SysState × TrainingStatusS :=
  match trainModel pairs evss sys now with
  | (.ok (bestDice, version), sys2) =>
    (sys2, { ts with
        status := ("completed")
        bestDice := bestDice
        version := some version
        completedAt := some now })
  | (.error .cancelled, sys2) =>
    (sys2, { ts with status := ("cancelled"), completedAt := some now })
  | (.error _, sys2) =>
    (sys2, { ts with status := ("error"), err := some ("training failed"), completedAt := some now })

/-! ## Specification-side functions

Derived descriptions of the training loop's outputs, proved equal to the
embedding's behaviour in the theorems below. -/

/-- Whether an epoch event is a successfully completed epoch. -/
def isMetrics : EpochEvent → Bool
  | .metrics _ _ => true
  | _ => false

/-- The best validation dice reached by a fold that starts from `best` and
runs the given epochs to completion. -/
def bestAfter (best : ℚ) : List EpochEvent → ℚ
  | [] => best
  | .metrics _ d :: rest => bestAfter (if best < d then d else best) rest
  | _ :: _ => best

/-- Best-fold tracking over a list of per-fold scores starting at index
`i`: the strict-improvement update of `train_model`. -/
def bestPair (p : Int × ℚ) (i : Nat) : List ℚ → Int × ℚ
  | [] => p
  | d :: rest => bestPair (if p.2 < d then (Int.ofNat i, d) else p) (i + 1) rest

/-- The epoch records written for the longest prefix of completed epochs,
with epoch numbers starting at `e0`. -/
def recsOf : List EpochEvent → Nat → List EpochRec
  | .metrics l d :: rest, e0 => ⟨e0, round6 l, round6 d⟩ :: recsOf rest (e0 + 1)
  | _, _ => []

/-- The exception produced by the first non-metrics event, if any. -/
def raiseKind : List EpochEvent → Option RunErr
  | [] => none
  | .metrics _ _ :: rest => raiseKind rest
  | .cancelHit :: _ => some .cancelled
  | .trainFail :: _ => some .failed

/-- The per-fold best validation scores of a run whose fold outcomes are
`evss` (fold `i` runs the events `evss[i]`, starting from a best of 0). -/
def foldScores (evss : List (List EpochEvent)) : List ℚ :=
  (List.range N_FOLDS).map (fun i => bestAfter 0 (evss.getD i []))

/-- Default fold-log entry used for out-of-range reads. -/
def dFold : FoldLog := ⟨0, 0, 0, 0, 0, []⟩

/-- The terminal status string recorded for a training outcome: what
run_training_task stamps into the global status and finalize stamps into
the record. -/
def statusOfOutcome : Except TrainErr (ℚ × String) → String
  | .ok _ => ("completed")
  | .error .cancelled => ("cancelled")
  | .error _ => ("error")

/-! ## Concrete states used by witnesses and counterexamples -/

/-- Empty live files. -/
def noFiles : Files := { foldPt := fun _ => none, bestPt := none }

/-- A version directory that holds one fold checkpoint but no record
document. -/
def wDirNoLog : VersionDir :=
  { foldCkpts := fun i => if i = 0 then some ⟨1, 1, 0⟩ else none
    bestCkpt := none
    logFile := none }

/-- System state with a single version directory v001 lacking its record. -/
def wStateNoLog : SysState :=
  { files := noFiles, versions := [(("v001"), wDirNoLog)], infModels := [], infLoaded := true }

/-- Fresh system state with no versions and a loaded inference ensemble. -/
def wStateLoaded : SysState :=
  { files := noFiles, versions := [], infModels := [⟨1, 1, 0⟩], infLoaded := true }

/-- Two training pairs (the configured minimum). -/
def wPairs : List (String × String) :=
  [(("a.png"), ("a.png")), (("b.png"), ("b.png"))]

/-- An idle global status. -/
def wIdleStatus : TrainingStatusS :=
  { status := ("idle"), epoch := 0, maxEpochs := 0, bestDice := 0, currentFold := 0,
    nFolds := N_FOLDS, startedAt := none, completedAt := none, err := none, version := none }

/-- Version-store states for the allocation-monotonicity witness: the
first call returns v001, whose directory then exists at the second call. -/
def wStates : Nat → List String
  | 0 => []
  | _ => [("v001")]

/-- Store in which the inbox has image a.png and nothing else. -/
def wStore : Store :=
  { compImgs := fun _ => none
    compAnns := fun _ => none
    inboxImgs := fun x => if x = ("a.png") then some [] else none
    inboxAnns := fun _ => none }

/-- Directory listing in which every completed annotation has a matching
completed image. -/
def wDirState : DirState :=
  { compImgs := [("a.png"), ("b.png")].toFinset
    compAnns := [("a.png")].toFinset
    inboxImgs := [("c.png"), ("d.png")].toFinset
    inboxAnns := [("c.png"), ("x.txt")].toFinset }

/-! ## Theorems -/

/-- C1: saveAnnotation fails with InvalidReference for every id that does
not name an existing inbox image, leaving both partitions' file sets
unchanged (the error is raised before any write, so the store is not
modified); for every id naming an existing inbox image it succeeds,
writing the annotation into the inbox annotation area (overwriting any
prior one) and never touching the completed partition. -/
theorem save_annot_partition_safety (st : Store) (imageId : String) (data : Bytes) :
    (st.inboxImgs imageId = none → ∃ e, saveAnnot st imageId data = .error e) ∧
    (∀ b, st.inboxImgs imageId = some b →
      ∃ st2, saveAnnot st imageId data = .ok st2 ∧
        st2.compImgs = st.compImgs ∧ st2.compAnns = st.compAnns ∧
        st2.inboxImgs = st.inboxImgs ∧
        st2.inboxAnns imageId = some data ∧
        ∀ x, x ≠ imageId → st2.inboxAnns x = st.inboxAnns x) := by
  constructor
  · intro h
    simp only [saveAnnot, h]
    exact ⟨_, rfl⟩
  · intro b h
    refine ⟨{ st with inboxAnns := fun x => if x = imageId then some data else st.inboxAnns x },
      ?_, rfl, rfl, rfl, ?_, ?_⟩
    · simp [saveAnnot, h]
    · simp
    · intro x hx
      simp [hx]

/-- Witness for C1 at a concrete store: submitting for b.png (absent from
the inbox) fails; submitting for a.png (present) succeeds without touching
the completed partition. -/
theorem save_annot_partition_safety_witness :
    (wStore.inboxImgs ("b.png") = none ∧
      ∃ e, saveAnnot wStore ("b.png") [] = .error e) ∧
    (wStore.inboxImgs ("a.png") = some [] ∧
      ∃ st2, saveAnnot wStore ("a.png") [7] = .ok st2 ∧
        st2.compImgs = wStore.compImgs ∧ st2.compAnns = wStore.compAnns ∧
        st2.inboxImgs = wStore.inboxImgs ∧
        st2.inboxAnns ("a.png") = some [7] ∧
        ∀ x, x ≠ ("a.png") → st2.inboxAnns x = wStore.inboxAnns x) := by
  constructor
  · exact ⟨rfl, (save_annot_partition_safety wStore ("b.png") []).1 rfl⟩
  · refine ⟨rfl, ?_⟩
    obtain ⟨st2, h⟩ := (save_annot_partition_safety wStore ("a.png") [7]).2 [] rfl
    exact ⟨st2, h⟩

/-- C9: when every completed annotation has a matching completed image,
the total_training_pairs count of get_stats equals the number of pairs
collected by get_all_training_pairs. -/
theorem stats_total_matches_training_pairs (d : DirState)
    (h : d.compAnns ⊆ d.compImgs) :
    statsTotalPairs d = trainingPairsCount d := by
  unfold statsTotalPairs trainingPairsCount
  have h2 : pngOnly d.compAnns ⊆ pngOnly d.compImgs := Finset.filter_subset_filter _ h
  rw [Finset.filter_mem_eq_inter, Finset.filter_mem_eq_inter, Finset.filter_mem_eq_inter]
  rw [Finset.inter_comm (pngOnly d.inboxAnns) (pngOnly d.inboxImgs)]
  rw [Finset.inter_eq_right.mpr h2]

/-- Witness for C9 at a concrete directory state. -/
theorem stats_total_matches_training_pairs_witness :
    wDirState.compAnns ⊆ wDirState.compImgs ∧
      statsTotalPairs wDirState = trainingPairsCount wDirState :=
  ⟨by decide, stats_total_matches_training_pairs wDirState (by decide)⟩

/-- C2: startRun rejects with InsufficientData when fewer than MIN_PAIRS
eligible pairs exist (no version number is allocated: the trainer's own
guard also fires before allocation, leaving the version store untouched);
rejects with AlreadyRunning as an HTTP 409 conflict when a run is in the
running state, leaving that run's status unchanged and not queueing
anything; otherwise sets the status to running with reset progress
counters, clears the cancel flag, schedules the background task, and
returns immediately. -/
theorem start_training_spec (pairs : List (String × String)) (maxEpochs : Nat)
    (ts : TrainingStatusS) (cancelFlag : Bool) (now : Nat)
    (evss : List (List EpochEvent)) (sys : SysState) :
    (pairs.length < MIN_IMAGES_FOR_TRAINING →
      startTraining pairs maxEpochs ts cancelFlag now =
        ⟨.insufficientData, ts, cancelFlag, false⟩ ∧
      respHttpCode .insufficientData = 400 ∧
      (trainModel pairs evss sys now).1 = .error .insufficientData ∧
      (trainModel pairs evss sys now).2 = sys) ∧
    (MIN_IMAGES_FOR_TRAINING ≤ pairs.length → ts.status = ("running") →
      startTraining pairs maxEpochs ts cancelFlag now =
        ⟨.alreadyRunning, ts, cancelFlag, false⟩ ∧
      respHttpCode .alreadyRunning = 409) ∧
    (MIN_IMAGES_FOR_TRAINING ≤ pairs.length → ts.status ≠ ("running") →
      ∃ ts2, startTraining pairs maxEpochs ts cancelFlag now = ⟨.started, ts2, false, true⟩ ∧
        ts2.status = ("running") ∧ ts2.epoch = 0 ∧ ts2.bestDice = 0 ∧ ts2.currentFold = 0 ∧
        ts2.startedAt = some now ∧ ts2.completedAt = none) := by
  refine ⟨?_, ?_, ?_⟩
  · intro h
    refine ⟨?_, rfl, ?_, ?_⟩ <;> simp [startTraining, trainModel, h]
  · intro h1 h2
    have h3 : ¬ pairs.length < MIN_IMAGES_FOR_TRAINING := Nat.not_lt.mpr h1
    exact ⟨by simp [startTraining, h3, h2], rfl⟩
  · intro h1 h2
    have h3 : ¬ pairs.length < MIN_IMAGES_FOR_TRAINING := Nat.not_lt.mpr h1
    refine ⟨{ ts with
                status := ("running"), epoch := 0, maxEpochs := N_FOLDS * maxEpochs,
                bestDice := 0, currentFold := 0, nFolds := N_FOLDS, startedAt := some now,
                completedAt := none, err := none },
      ?_, rfl, rfl, rfl, rfl, rfl, rfl⟩
    simp [startTraining, h3, h2]

/-- Witness for C2: with one pair the request is rejected with
InsufficientData and the version store is untouched; with two pairs and an
idle status the run starts with reset counters. -/
theorem start_training_spec_witness :
    ([(("a.png"), ("a.png"))].length < MIN_IMAGES_FOR_TRAINING ∧
      startTraining [(("a.png"), ("a.png"))] 50 wIdleStatus true 3 =
        ⟨.insufficientData, wIdleStatus, true, false⟩) ∧
    (MIN_IMAGES_FOR_TRAINING ≤ wPairs.length ∧ wIdleStatus.status ≠ ("running") ∧
      ∃ ts2, startTraining wPairs 50 wIdleStatus true 3 = ⟨.started, ts2, false, true⟩ ∧
        ts2.status = ("running") ∧ ts2.epoch = 0 ∧ ts2.bestDice = 0 ∧ ts2.currentFold = 0 ∧
        ts2.startedAt = some 3 ∧ ts2.completedAt = none) := by
  constructor
  · exact ⟨by decide,
      (start_training_spec [(("a.png"), ("a.png"))] 50 wIdleStatus true 3 [] wStateLoaded).1
        (by decide) |>.1⟩
  · refine ⟨by decide, by decide, ?_⟩
    exact (start_training_spec wPairs 50 wIdleStatus true 3 [] wStateLoaded).2.2
      (by decide) (by decide)

/-! ### Fold-split lemmas (C4) -/

theorem length_modifyIdx (f : α → α) (j : Nat) (l : List α) :
    (modifyIdx f j l).length = l.length := by
  induction l generalizing j with
  | nil => cases j <;> rfl
  | cons a as ih => cases j <;> simp [modifyIdx, ih]

theorem getD_modifyIdx_ne (f : α → α) {j i : Nat} (l : List α) (d : α) (h : i ≠ j) :
    (modifyIdx f j l).getD i d = l.getD i d := by
  induction l generalizing i j with
  | nil => cases j <;> rfl
  | cons a as ih =>
    cases j with
    | zero =>
      cases i with
      | zero => exact absurd rfl h
      | succ i => simp [modifyIdx]
    | succ j =>
      cases i with
      | zero => simp [modifyIdx]
      | succ i => simpa [modifyIdx] using ih (fun hh => h (by omega))

theorem getD_modifyIdx_self (f : α → α) {j : Nat} (l : List α) (d : α) (h : j < l.length) :
    (modifyIdx f j l).getD j d = f (l.getD j d) := by
  induction l generalizing j with
  | nil => simp at h
  | cons a as ih =>
    cases j with
    | zero => simp [modifyIdx]
    | succ j => simpa [modifyIdx] using ih (by simpa using h)

theorem makeFoldsGo_append (nFolds : Nat) (xs : List α) (x : α) (i : Nat)
    (folds : List (List α)) :
    makeFoldsGo nFolds i (xs ++ [x]) folds =
      modifyIdx (fun f => f ++ [x]) ((i + xs.length) % nFolds) (makeFoldsGo nFolds i xs folds) := by
  induction xs generalizing i folds with
  | nil => simp [makeFoldsGo]
  | cons y ys ih =>
    simp only [List.cons_append, makeFoldsGo]
    change makeFoldsGo nFolds (i + 1) (ys ++ [x]) _ = _
    rw [ih]
    have h : i + 1 + ys.length = i + (y :: ys).length := by simp; omega
    rw [h]

theorem makeFolds_append (l : List α) (x : α) (k : Nat) :
    makeFolds (l ++ [x]) k = modifyIdx (fun f => f ++ [x]) (l.length % k) (makeFolds l k) := by
  unfold makeFolds
  simpa using makeFoldsGo_append k l x 0 (List.replicate k [])

theorem makeFolds_length (l : List α) (k : Nat) : (makeFolds l k).length = k := by
  induction l using List.reverseRecOn with
  | nil => simp [makeFolds, makeFoldsGo]
  | append_singleton l x ih => rw [makeFolds_append, length_modifyIdx, ih]

theorem flatten_modifyIdx_perm (x : α) (j : Nat) (l : List (List α)) (h : j < l.length) :
    (modifyIdx (fun f => f ++ [x]) j l).flatten.Perm (l.flatten ++ [x]) := by
  induction l generalizing j with
  | nil => simp at h
  | cons a as ih =>
    cases j with
    | zero =>
      simp only [modifyIdx, List.flatten_cons]
      rw [List.append_assoc, List.append_assoc]
      exact List.Perm.append_left a List.perm_append_comm
    | succ j =>
      simp only [modifyIdx, List.flatten_cons]
      rw [List.append_assoc]
      exact List.Perm.append_left a (ih j (by simpa using h))

theorem makeFolds_flatten_perm (l : List α) (k : Nat) (hk : 1 ≤ k) :
    (makeFolds l k).flatten.Perm l := by
  induction l using List.reverseRecOn with
  | nil => simp [makeFolds, makeFoldsGo, List.flatten_eq_nil_iff]
  | append_singleton l x ih =>
    rw [makeFolds_append]
    refine (flatten_modifyIdx_perm x _ _ ?_).trans (List.Perm.append_right [x] ih)
    rw [makeFolds_length]
    exact Nat.mod_lt _ hk

theorem getD_replicate_nil (k j : Nat) :
    (List.replicate k ([] : List α)).getD j [] = [] := by
  induction k generalizing j with
  | zero => cases j <;> rfl
  | succ k ih => cases j <;> simp [List.replicate_succ, ih]

theorem makeFolds_getD_length (l : List α) (k : Nat) (hk : 1 ≤ k) (j : Nat) :
    ((makeFolds l k).getD j []).length = rrCount k j l.length := by
  induction l using List.reverseRecOn with
  | nil =>
    simp only [makeFolds, makeFoldsGo, rrCount]
    simp [getD_replicate_nil]
  | append_singleton l x ih =>
    rw [makeFolds_append]
    by_cases hc : l.length % k = j
    · rw [← hc]
      rw [getD_modifyIdx_self (fun f => f ++ [x]) (makeFolds l k) []
        (by rw [makeFolds_length]; exact Nat.mod_lt _ hk)]
      simp only [List.length_append, List.length_singleton, List.length_cons]
      rw [hc, ih]
      simp [rrCount, hc]
    · rw [getD_modifyIdx_ne (fun f => f ++ [x]) (makeFolds l k) [] (fun hh => hc hh.symm)]
      rw [ih]
      simp [rrCount, hc]

theorem rrCount_eq (k j : Nat) (hk : 1 ≤ k) (hj : j < k) (t : Nat) :
    rrCount k j t = t / k + (if j < t % k then 1 else 0) := by
  induction t with
  | zero => simp [rrCount]
  | succ t ih =>
    have hk0 : 0 < k := hk
    have hdm : k * (t / k) + t % k = t := Nat.div_add_mod t k
    have hmlt : t % k < k := Nat.mod_lt _ hk0
    rw [rrCount, ih]
    rcases Nat.lt_or_ge (t % k + 1) k with hcase | hcase
    · have e : t + 1 = (t % k + 1) + k * (t / k) := by omega
      have hmod : (t + 1) % k = t % k + 1 := by
        rw [e, Nat.add_mul_mod_self_left, Nat.mod_eq_of_lt hcase]
      have hdiv : (t + 1) / k = t / k := by
        rw [e, Nat.add_mul_div_left _ _ hk0, Nat.div_eq_of_lt hcase, Nat.zero_add]
      rw [hmod, hdiv]
      split_ifs <;> omega
    · have heq : t % k = k - 1 := by omega
      have hmul : k * (t / k + 1) = k * (t / k) + k := by ring
      have e : t + 1 = 0 + k * (t / k + 1) := by omega
      have hmod : (t + 1) % k = 0 := by
        rw [e, Nat.add_mul_mod_self_left, Nat.zero_mod]
      have hdiv : (t + 1) / k = t / k + 1 := by
        rw [e, Nat.add_mul_div_left _ _ hk0, Nat.zero_div, Nat.zero_add]
      rw [hmod, hdiv]
      split_ifs <;> omega

/-- C4: for every pair list and every fold count k of at least 1, the
round-robin fold assignment of _make_folds produces exactly k folds whose
sizes pairwise differ by at most 1 and whose multiset union is exactly the
input list (each element appearing exactly once). -/
theorem make_folds_spec {α : Type} (l : List α) (k : Nat) (hk : 1 ≤ k) :
    (makeFolds l k).length = k ∧
    (∀ f1 ∈ makeFolds l k, ∀ f2 ∈ makeFolds l k, f1.length ≤ f2.length + 1) ∧
    (makeFolds l k).flatten.Perm l := by
  refine ⟨makeFolds_length l k, ?_, makeFolds_flatten_perm l k hk⟩
  intro f1 h1 f2 h2
  obtain ⟨⟨i1, hi1⟩, hg1⟩ := List.mem_iff_get.mp h1
  obtain ⟨⟨i2, hi2⟩, hg2⟩ := List.mem_iff_get.mp h2
  have e1 : f1 = (makeFolds l k).getD i1 [] := by
    rw [List.getD_eq_getElem _ _ hi1]
    exact hg1.symm
  have e2 : f2 = (makeFolds l k).getD i2 [] := by
    rw [List.getD_eq_getElem _ _ hi2]
    exact hg2.symm
  rw [makeFolds_length] at hi1 hi2
  rw [e1, e2, makeFolds_getD_length l k hk i1, makeFolds_getD_length l k hk i2,
    rrCount_eq k i1 hk hi1, rrCount_eq k i2 hk hi2]
  have := Nat.mod_lt l.length (show 0 < k from hk)
  split_ifs <;> omega

/-- Witness for C4 at a concrete list and fold count. -/
theorem make_folds_spec_witness :
    1 ≤ 2 ∧
    ((makeFolds [10, 20, 30] 2).length = 2 ∧
      (∀ f1 ∈ makeFolds [10, 20, 30] 2, ∀ f2 ∈ makeFolds [10, 20, 30] 2,
        f1.length ≤ f2.length + 1) ∧
      (makeFolds [10, 20, 30] 2).flatten.Perm [10, 20, 30]) :=
  ⟨by decide, make_folds_spec [10, 20, 30] 2 (by decide)⟩

/-! ### Version-identifier lemmas (C5) -/

theorem digitVal_decDigit (m : Nat) (h : m < 10) : digitVal (decDigit m) = m := by
  interval_cases m <;> decide

theorem isDigit_decDigit (m : Nat) (h : m < 10) : (decDigit m).isDigit = true := by
  interval_cases m <;> decide

theorem natDigitsAux_spec (fuel : Nat) : ∀ n, n < fuel →
    (natDigitsAux fuel n).foldl (fun a ch => 10 * a + digitVal ch) 0 = n ∧
    natDigitsAux fuel n ≠ [] ∧
    ∀ ch ∈ natDigitsAux fuel n, ch.isDigit = true := by
  induction fuel with
  | zero => omega
  | succ fuel ih =>
    intro n hn
    by_cases h10 : n < 10
    · simp only [natDigitsAux, if_pos h10]
      refine ⟨?_, by simp, ?_⟩
      · simp only [List.foldl_cons, List.foldl_nil]
        rw [digitVal_decDigit n h10]
        omega
      · intro ch hch
        simp only [List.mem_singleton] at hch
        subst hch
        exact isDigit_decDigit n h10
    · have hdiv : n / 10 < fuel :=
        lt_of_lt_of_le (Nat.div_lt_self (by omega) (by omega)) (by omega)
      obtain ⟨hv, hne, hd⟩ := ih (n / 10) hdiv
      simp only [natDigitsAux, if_neg h10]
      refine ⟨?_, by simp, ?_⟩
      · rw [List.foldl_append]
        simp only [List.foldl_cons, List.foldl_nil]
        rw [hv, digitVal_decDigit (n % 10) (Nat.mod_lt _ (by omega))]
        omega
      · intro ch hch
        rcases List.mem_append.mp hch with hch | hch
        · exact hd ch hch
        · simp only [List.mem_singleton] at hch
          subst hch
          exact isDigit_decDigit _ (Nat.mod_lt _ (by omega))

theorem foldl_digit_zeros (m : Nat) :
    (List.replicate m ('0')).foldl (fun a ch => 10 * a + digitVal ch) 0 = 0 := by
  induction m with
  | zero => rfl
  | succ m ih =>
    rw [List.replicate_succ, List.foldl_cons]
    have h : (10 * 0 + digitVal ('0')) = 0 := by decide
    rw [h, ih]

theorem toList_mk (l : List Char) : (String.mk l).toList = l := rfl

theorem parseVersionChars_cons (c : Char) (ds : List Char) :
    parseVersionChars (c :: ds) =
      if c = 'v' ∧ 3 ≤ ds.length ∧ (∀ ch ∈ ds, ch.isDigit) then
        some (ds.foldl (fun a ch => 10 * a + digitVal ch) 0)
      else none := rfl

/-- The identifier written by the f-string scans back to the number it was
written from: `parseVersionName` is a left inverse of `fmtVersion`. -/
theorem parse_fmtVersion (n : Nat) : parseVersionName (fmtVersion n) = some n := by
  obtain ⟨hv, hne, hd⟩ := natDigitsAux_spec (n + 1) n (Nat.lt_succ_self n)
  have hlen1 : 1 ≤ (natDigits n).length := List.length_pos.mpr hne
  unfold parseVersionName fmtVersion
  rw [toList_mk, parseVersionChars_cons]
  have hcond : ('v' = 'v' ∧
      3 ≤ (List.replicate (3 - (natDigits n).length) ('0') ++ natDigits n).length ∧
      ∀ ch ∈ List.replicate (3 - (natDigits n).length) ('0') ++ natDigits n,
        ch.isDigit = true) := by
    refine ⟨rfl, ?_, ?_⟩
    · rw [List.length_append, List.length_replicate]
      omega
    · intro ch hch
      rcases List.mem_append.mp hch with hch | hch
      · rw [List.eq_of_mem_replicate hch]
        decide
      · exact hd ch hch
  rw [if_pos hcond, List.foldl_append, foldl_digit_zeros]
  exact congrArg some hv

theorem le_foldl_maxVerStep (names : List String) (a : Nat) :
    a ≤ names.foldl maxVerStep a := by
  induction names generalizing a with
  | nil => exact le_refl a
  | cons name rest ih =>
    rw [List.foldl_cons]
    refine le_trans ?_ (ih (maxVerStep a name))
    unfold maxVerStep
    cases parseVersionName name with
    | none => exact le_refl a
    | some k => exact le_max_left a k

theorem parse_le_foldl_maxVerStep (names : List String) (a : Nat) (name : String) (k : Nat)
    (hmem : name ∈ names) (hp : parseVersionName name = some k) :
    k ≤ names.foldl maxVerStep a := by
  induction names generalizing a with
  | nil => simp at hmem
  | cons n2 rest ih =>
    rcases List.mem_cons.mp hmem with he | hm
    · subst he
      rw [List.foldl_cons]
      refine le_trans ?_ (le_foldl_maxVerStep rest _)
      unfold maxVerStep
      rw [hp]
      exact le_max_right a k
    · rw [List.foldl_cons]
      exact ih _ hm

theorem parse_le_maxVersionNum {names : List String} {name : String} {k : Nat}
    (hmem : name ∈ names) (hp : parseVersionName name = some k) :
    k ≤ maxVersionNum names :=
  parse_le_foldl_maxVerStep names 0 name k hmem hp

/-- C5: allocateNextVersion returns the zero-padded identifier whose
numeric suffix is the maximum existing suffix plus one (v001 when no
version exists); over any sequence of calls in which each returned
identifier exists in the store by the time of the next call (versions may
be added and earlier directories may be deleted in between), the returned
numbers are strictly increasing and the returned identifiers never
repeat. -/
theorem get_next_version_spec (states : Nat → List String) (j : Nat)
    (h : ∀ i, i < j → getNextVersion (states i) ∈ states (i + 1)) :
    getNextVersion [] = ("v001") ∧
    (∀ names, parseVersionName (getNextVersion names) = some (maxVersionNum names + 1)) ∧
    (∀ i1 i2, i1 < i2 → i2 ≤ j →
      maxVersionNum (states i1) + 1 < maxVersionNum (states i2) + 1 ∧
      getNextVersion (states i1) ≠ getNextVersion (states i2)) := by
  have hparse : ∀ names, parseVersionName (getNextVersion names) =
      some (maxVersionNum names + 1) := fun names => parse_fmtVersion _
  have step : ∀ i, i < j →
      maxVersionNum (states i) + 1 ≤ maxVersionNum (states (i + 1)) := by
    intro i hi
    exact parse_le_maxVersionNum (h i hi) (hparse (states i))
  have mono : ∀ d i1, i1 + d + 1 ≤ j →
      maxVersionNum (states i1) + 1 < maxVersionNum (states (i1 + d + 1)) + 1 := by
    intro d
    induction d with
    | zero =>
      intro i1 hle
      have hs := step i1 (by omega)
      show maxVersionNum (states i1) + 1 < maxVersionNum (states (i1 + 1)) + 1
      omega
    | succ d ih =>
      intro i1 hle
      have h1 := ih i1 (by omega)
      have h2 := step (i1 + d + 1) (by omega)
      show maxVersionNum (states i1) + 1 < maxVersionNum (states (i1 + d + 1 + 1)) + 1
      omega
  refine ⟨by decide, hparse, ?_⟩
  intro i1 i2 h12 h2j
  have hm : maxVersionNum (states i1) + 1 < maxVersionNum (states i2) + 1 := by
    have := mono (i2 - i1 - 1) i1 (by omega)
    rw [show i1 + (i2 - i1 - 1) + 1 = i2 by omega] at this
    exact this
  refine ⟨hm, ?_⟩
  intro heq
  have e1 := hparse (states i1)
  have e2 := hparse (states i2)
  rw [heq, e2] at e1
  have : maxVersionNum (states i2) + 1 = maxVersionNum (states i1) + 1 :=
    Option.some_injective _ e1
  omega

/-- Witness for C5: with the store empty the first call returns v001; once
its directory exists the next allocation is strictly larger and distinct. -/
theorem get_next_version_spec_witness :
    (∀ i, i < 1 → getNextVersion (wStates i) ∈ wStates (i + 1)) ∧
    (getNextVersion [] = ("v001") ∧
      (∀ names, parseVersionName (getNextVersion names) = some (maxVersionNum names + 1)) ∧
      (∀ i1 i2, i1 < i2 → i2 ≤ 1 →
        maxVersionNum (wStates i1) + 1 < maxVersionNum (wStates i2) + 1 ∧
        getNextVersion (wStates i1) ≠ getNextVersion (wStates i2))) :=
  ⟨by decide, get_next_version_spec wStates 1 (by decide)⟩

/-! ### Version-store plumbing lemmas (C3, C6, C10) -/

theorem insertSorted_perm (le : α → α → Bool) (x : α) (l : List α) :
    (insertSorted le x l).Perm (x :: l) := by
  induction l with
  | nil => exact List.Perm.refl _
  | cons y ys ih =>
    unfold insertSorted
    by_cases h : le x y
    · rw [if_pos h]
    · rw [if_neg h]
      exact (List.Perm.cons y ih).trans (List.Perm.swap x y ys)

theorem sortPairs_perm (le : α → α → Bool) (l : List α) : (sortPairs le l).Perm l := by
  induction l with
  | nil => exact List.Perm.refl _
  | cons x xs ih =>
    exact (insertSorted_perm le x (sortPairs le xs)).trans (List.Perm.cons x ih)

theorem mem_listAllVersions_of_mem {vs : List (String × VersionDir)} {name : String}
    {dir : VersionDir} {k : Nat} {lg : VersionLog}
    (hmem : (name, dir) ∈ vs) (hp : parseVersionName name = some k)
    (hlog : dir.logFile = some lg) :
    mkSummary name lg ∈ listAllVersions vs := by
  unfold listAllVersions
  rw [List.mem_filterMap]
  refine ⟨(name, dir), ((sortPairs_perm nameLe vs).mem_iff).mpr hmem, ?_⟩
  simp [hp, hlog]

theorem fresh_version_not_mem (vs : List (String × VersionDir)) :
    ∀ p ∈ vs, p.1 ≠ getNextVersion (vs.map (fun q => q.1)) := by
  intro p hp heq
  have hparse : parseVersionName p.1 =
      some (maxVersionNum (vs.map (fun q => q.1)) + 1) := by
    rw [heq]
    exact parse_fmtVersion _
  have hmem : p.1 ∈ vs.map (fun q => q.1) := List.mem_map_of_mem _ hp
  have := parse_le_maxVersionNum hmem hparse
  omega

theorem find?_append_of_none {p : β → Bool} {l1 l2 : List β} (h : l1.find? p = none) :
    (l1 ++ l2).find? p = l2.find? p := by
  induction l1 with
  | nil => rfl
  | cons a as ih =>
    have hb : p a = false := by
      by_contra hc
      have hc2 : p a = true := by simpa using hc
      rw [List.find?_cons_of_pos _ hc2] at h
      exact Option.some_ne_none a h
    rw [List.find?_cons_of_neg _ (by simp [hb])] at h
    rw [List.cons_append, List.find?_cons_of_neg _ (by simp [hb])]
    exact ih h

theorem lookupDir_updateVersions_fresh (vs : List (String × VersionDir)) (name : String)
    (d : VersionDir) (hfresh : ∀ p ∈ vs, p.1 ≠ name) :
    updateVersions vs name d = vs ++ [(name, d)] ∧
    lookupDir (updateVersions vs name d) name = some d := by
  have hany : vs.any (fun p => decide (p.1 = name)) = false := by
    rw [List.any_eq_false]
    intro p hp
    simpa using hfresh p hp
  have heq : updateVersions vs name d = vs ++ [(name, d)] := by
    unfold updateVersions
    rw [hany]
    simp
  refine ⟨heq, ?_⟩
  rw [heq]
  unfold lookupDir
  have hnone : vs.find? (fun p => decide (p.1 = name)) = none := by
    rw [List.find?_eq_none]
    intro p hp
    simpa using hfresh p hp
  rw [find?_append_of_none hnone]
  simp [List.find?]

theorem finalizeVersion_lookup (now : Nat) (version : String) (log : VersionLog)
    (foldDices : List ℚ) (bestIdx : Int) (status : String) (files : Files)
    (vs : List (String × VersionDir)) (hfresh : ∀ p ∈ vs, p.1 ≠ version) :
    ∃ d2, lookupDir (finalizeVersion now version log foldDices bestIdx status files vs)
        version = some d2 ∧
      (version, d2) ∈ finalizeVersion now version log foldDices bestIdx status files vs ∧
      d2.logFile = some { log with
        results := some
          { mean_dice := round6
              (if foldDices.isEmpty then 0 else foldDices.sum / (foldDices.length : ℚ))
            fold_dices := foldDices.map round6
            best_fold_idx := bestIdx
            best_fold_dice :=
              if foldDices.isEmpty then 0 else round6 (pyGet foldDices bestIdx) }
        status := status
        completed_at := some now } := by
  simp only [finalizeVersion]
  obtain ⟨heq, hlk⟩ := lookupDir_updateVersions_fresh vs version _ hfresh
  refine ⟨_, hlk, ?_, rfl⟩
  rw [heq]
  exact List.mem_append_right _ (by simp)

/-- C3: on every exit path of a training run — completed, cancelled or
error — finalize is invoked for the allocated version, and afterwards the
version listing contains that version with a non-null completed_at and a
status equal to the run's outcome. -/
theorem finalize_always (pairs : List (String × String)) (evss : List (List EpochEvent))
    (st : SysState) (now : Nat) (hlen : MIN_IMAGES_FOR_TRAINING ≤ pairs.length) :
    ∃ s ∈ listAllVersions (trainModel pairs evss st now).2.versions,
      s.version = getNextVersion (st.versions.map (fun p => p.1)) ∧
      s.completed_at = some now ∧
      s.status = statusOfOutcome (trainModel pairs evss st now).1 := by
  have hnot : ¬ pairs.length < MIN_IMAGES_FOR_TRAINING := Nat.not_lt.mpr hlen
  have hfresh := fresh_version_not_mem st.versions
  have hparse := parse_fmtVersion (maxVersionNum (st.versions.map (fun q => q.1)) + 1)
  simp only [trainModel]
  rw [if_neg hnot]
  rcases herr : (runFolds (makeFolds pairs N_FOLDS)
      ((List.range N_FOLDS).map (fun i => evss.getD i []))
      0 [] (-1) 0 st.files
      (createVersionLog (getNextVersion (st.versions.map (fun p => p.1))) pairs now)).err
    with _ | e
  · simp only [herr]
    obtain ⟨d2, hlk, hmem, hlog⟩ := finalizeVersion_lookup now _ _ _ _ ("completed") _
      st.versions hfresh
    exact ⟨mkSummary _ _, mem_listAllVersions_of_mem hmem hparse hlog, rfl, rfl, rfl⟩
  · cases e with
    | cancelled =>
      simp only [herr]
      obtain ⟨d2, hlk, hmem, hlog⟩ := finalizeVersion_lookup now _ _ _ _ ("cancelled") _
        st.versions hfresh
      exact ⟨mkSummary _ _, mem_listAllVersions_of_mem hmem hparse hlog, rfl, rfl, rfl⟩
    | failed =>
      simp only [herr]
      obtain ⟨d2, hlk, hmem, hlog⟩ := finalizeVersion_lookup now _ _ _ _ ("error") _
        st.versions hfresh
      exact ⟨mkSummary _ _, mem_listAllVersions_of_mem hmem hparse hlog, rfl, rfl, rfl⟩

/-- Witness for C3 at a concrete run (two pairs, one fold event list that
cancels immediately). -/
theorem finalize_always_witness :
    MIN_IMAGES_FOR_TRAINING ≤ wPairs.length ∧
    ∃ s ∈ listAllVersions (trainModel wPairs [[.cancelHit]] wStateLoaded 7).2.versions,
      s.version = getNextVersion (wStateLoaded.versions.map (fun p => p.1)) ∧
      s.completed_at = some 7 ∧
      s.status = statusOfOutcome (trainModel wPairs [[.cancelHit]] wStateLoaded 7).1 :=
  ⟨by decide, finalize_always wPairs [[.cancelHit]] wStateLoaded 7 (by decide)⟩

/-! ### Inference-invalidation behaviour (C7) -/

theorem trainModel_inf (pairs : List (String × String)) (evss : List (List EpochEvent))
    (st : SysState) (now : Nat) :
    (∀ q v, (trainModel pairs evss st now).1 = .ok (q, v) →
      (trainModel pairs evss st now).2.infLoaded = false ∧
      (trainModel pairs evss st now).2.infModels = []) ∧
    (∀ e, (trainModel pairs evss st now).1 = .error e →
      (trainModel pairs evss st now).2.infLoaded = st.infLoaded ∧
      (trainModel pairs evss st now).2.infModels = st.infModels) := by
  by_cases hlen : pairs.length < MIN_IMAGES_FOR_TRAINING
  · simp only [trainModel]
    rw [if_pos hlen]
    exact ⟨fun q v h => by simp at h, fun e h => ⟨rfl, rfl⟩⟩
  · simp only [trainModel]
    rw [if_neg hlen]
    rcases herr : (runFolds (makeFolds pairs N_FOLDS)
        ((List.range N_FOLDS).map (fun i => evss.getD i []))
        0 [] (-1) 0 st.files
        (createVersionLog (getNextVersion (st.versions.map (fun p => p.1))) pairs now)).err
      with _ | e
    · simp only [herr]
      exact ⟨fun q v h => ⟨rfl, rfl⟩, fun e h => by simp at h⟩
    · cases e with
      | cancelled =>
        simp only [herr]
        exact ⟨fun q v h => by simp at h, fun e h => by simp⟩
      | failed =>
        simp only [herr]
        exact ⟨fun q v h => by simp at h, fun e h => by simp⟩

/-- C7 counterexample: a run that reaches the cancelled terminal outcome
leaves the inference engine's loaded flag untouched — the orchestrator
does not signal invalidation on the cancelled (or error) path, only on
completion. -/
theorem reload_not_signaled_on_cancel :
    (runTrainingTask wPairs [[.cancelHit]] wStateLoaded wIdleStatus 7).2.status
      = ("cancelled") ∧
    wStateLoaded.infLoaded = true ∧
    (runTrainingTask wPairs [[.cancelHit]] wStateLoaded wIdleStatus 7).1.infLoaded = true := by
  refine ⟨?_, rfl, ?_⟩ <;> decide

/-- C7 amended: the orchestrator signals the inference engine to
invalidate its loaded model set only when the run completes successfully;
on the cancelled and error outcomes the loaded set and flag are left
exactly as they were. -/
theorem reload_only_on_completed (pairs : List (String × String))
    (evss : List (List EpochEvent)) (sys : SysState) (ts : TrainingStatusS) (now : Nat) :
    ((runTrainingTask pairs evss sys ts now).2.status = ("completed") →
      (runTrainingTask pairs evss sys ts now).1.infLoaded = false ∧
      (runTrainingTask pairs evss sys ts now).1.infModels = []) ∧
    ((runTrainingTask pairs evss sys ts now).2.status = ("cancelled") ∨
        (runTrainingTask pairs evss sys ts now).2.status = ("error") →
      (runTrainingTask pairs evss sys ts now).1.infLoaded = sys.infLoaded ∧
      (runTrainingTask pairs evss sys ts now).1.infModels = sys.infModels) := by
  have key := trainModel_inf pairs evss sys now
  unfold runTrainingTask
  rcases hres : trainModel pairs evss sys now with ⟨res, sys2⟩
  rw [hres] at key
  cases res with
  | ok v =>
    rcases v with ⟨q, ver⟩
    simp only []
    constructor
    · intro _
      exact key.1 q ver rfl
    · intro hc
      rcases hc with hc | hc <;> exact absurd hc (by decide)
  | error e =>
    cases e with
    | insufficientData =>
      simp only []
      constructor
      · intro hc
        exact absurd hc (by decide)
      · intro _
        exact key.2 _ rfl
    | cancelled =>
      simp only []
      constructor
      · intro hc
        exact absurd hc (by decide)
      · intro _
        exact key.2 _ rfl
    | runFailed =>
      simp only []
      constructor
      · intro hc
        exact absurd hc (by decide)
      · intro _
        exact key.2 _ rfl

/-- Witness for the amended C7 at a concrete cancelled run. -/
theorem reload_only_on_completed_witness :
    (runTrainingTask wPairs [[.cancelHit]] wStateLoaded wIdleStatus 7).1.infLoaded =
      wStateLoaded.infLoaded ∧
    (runTrainingTask wPairs [[.cancelHit]] wStateLoaded wIdleStatus 7).1.infModels =
      wStateLoaded.infModels :=
  (reload_only_on_completed wPairs [[.cancelHit]] wStateLoaded wIdleStatus 7).2
    (Or.inl (by decide))

/-! ### Restore behaviour (C8) -/

/-- C8 counterexample: restore succeeds on a version whose directory
exists but whose record document (training_log.json) is absent — the
record is never checked, contradicting the claim that its absence yields
NotFound. -/
theorem restore_missing_record_succeeds :
    wDirNoLog.logFile = none ∧
    lookupDir wStateNoLog.versions ("v001") = some wDirNoLog ∧
    isOkE (restoreVersion ("v001") wStateNoLog) = true :=
  ⟨rfl, rfl, by decide⟩

/-- C8 amended: restore(version) fails with NotFound exactly when the
version's directory is absent — the record document is not consulted;
otherwise it copies the version's existing fold checkpoints and promoted
checkpoint into the live current slot (keeping the current file wherever
the version lacks one) and signals inference invalidation. -/
theorem restore_version_spec (version : String) (st : SysState) :
    (lookupDir st.versions version = none →
      restoreVersion version st = .error ("version not found")) ∧
    (∀ d, lookupDir st.versions version = some d →
      ∃ st2, restoreVersion version st = .ok st2 ∧
        st2.infLoaded = false ∧ st2.infModels = [] ∧
        st2.versions = st.versions ∧
        (∀ i, i < N_FOLDS →
          st2.files.foldPt i = match d.foldCkpts i with
            | some c => some c
            | none => st.files.foldPt i) ∧
        (∀ i, N_FOLDS ≤ i → st2.files.foldPt i = st.files.foldPt i) ∧
        st2.files.bestPt = match d.bestCkpt with
          | some c => some c
          | none => st.files.bestPt) := by
  constructor
  · intro h
    unfold restoreVersion
    rw [h]
  · intro d h
    unfold restoreVersion
    rw [h]
    refine ⟨_, rfl, rfl, rfl, rfl, ?_, ?_, rfl⟩
    · intro i hi
      simp [reloadModel, hi]
    · intro i hi
      have hni : ¬ i < N_FOLDS := Nat.not_lt.mpr hi
      simp [reloadModel, hni]

/-- Witness for the amended C8 at the concrete store with version v001. -/
theorem restore_version_spec_witness :
    lookupDir wStateNoLog.versions ("v001") = some wDirNoLog ∧
    (∃ st2, restoreVersion ("v001") wStateNoLog = .ok st2 ∧
      st2.infLoaded = false ∧ st2.infModels = [] ∧
      st2.versions = wStateNoLog.versions ∧
      (∀ i, i < N_FOLDS →
        st2.files.foldPt i = match wDirNoLog.foldCkpts i with
          | some c => some c
          | none => wStateNoLog.files.foldPt i) ∧
      (∀ i, N_FOLDS ≤ i → st2.files.foldPt i = wStateNoLog.files.foldPt i) ∧
      st2.files.bestPt = match wDirNoLog.bestCkpt with
        | some c => some c
        | none => wStateNoLog.files.bestPt) :=
  ⟨rfl, (restore_version_spec ("v001") wStateNoLog).2 wDirNoLog rfl⟩

/-! ### Training-loop lemmas (C6, C10) -/

theorem bestAfter_cons (best loss dice : ℚ) (rest : List EpochEvent) :
    bestAfter best (.metrics loss dice :: rest) =
      bestAfter (if best < dice then dice else best) rest := rfl

theorem bestPair_cons (p : Int × ℚ) (i : Nat) (d : ℚ) (rest : List ℚ) :
    bestPair p i (d :: rest) =
      bestPair (if p.2 < d then (Int.ofNat i, d) else p) (i + 1) rest := rfl

theorem le_bestAfter (evs : List EpochEvent) : ∀ best : ℚ, best ≤ bestAfter best evs := by
  induction evs with
  | nil => intro best; exact le_refl _
  | cons ev rest ih =>
    intro best
    cases ev with
    | cancelHit => exact le_refl _
    | trainFail => exact le_refl _
    | metrics loss dice =>
      rw [bestAfter_cons]
      refine le_trans ?_ (ih _)
      by_cases hlt : best < dice
      · rw [if_pos hlt]
        exact le_of_lt hlt
      · rw [if_neg hlt]

theorem raiseKind_none_iff (evs : List EpochEvent) :
    raiseKind evs = none ↔ evs.all isMetrics = true := by
  induction evs with
  | nil => simp [raiseKind]
  | cons ev rest ih =>
    cases ev with
    | metrics l d => simpa [raiseKind, isMetrics] using ih
    | cancelHit => simp [raiseKind, isMetrics]
    | trainFail => simp [raiseKind, isMetrics]

theorem recordEpoch_folds_length (log : VersionLog) (foldIdx epoch : Nat) (l d : ℚ) :
    (recordEpoch log foldIdx epoch l d).folds.length = log.folds.length :=
  length_modifyIdx _ _ _

theorem recordEpoch_folds_ne (log : VersionLog) (foldIdx epoch : Nat) (l d : ℚ)
    {j : Nat} (hj : j ≠ foldIdx) :
    (recordEpoch log foldIdx epoch l d).folds.getD j dFold = log.folds.getD j dFold :=
  getD_modifyIdx_ne _ _ _ hj

theorem recordEpoch_folds_self (log : VersionLog) (foldIdx epoch : Nat) (l d : ℚ)
    (h : foldIdx < log.folds.length) :
    ((recordEpoch log foldIdx epoch l d).folds.getD foldIdx dFold).epochs =
      (log.folds.getD foldIdx dFold).epochs ++ [⟨epoch, round6 l, round6 d⟩] := by
  unfold recordEpoch
  rw [getD_modifyIdx_self _ _ _ h]
  simp only []
  split_ifs <;> rfl

theorem setFoldSplitInfo_folds_length (log : VersionLog) (foldIdx tc vc : Nat) :
    (setFoldSplitInfo log foldIdx tc vc).folds.length = log.folds.length :=
  length_modifyIdx _ _ _

theorem setFoldSplitInfo_folds_ne (log : VersionLog) (foldIdx tc vc : Nat)
    {j : Nat} (hj : j ≠ foldIdx) :
    (setFoldSplitInfo log foldIdx tc vc).folds.getD j dFold = log.folds.getD j dFold :=
  getD_modifyIdx_ne _ _ _ hj

theorem setFoldSplitInfo_folds_self (log : VersionLog) (foldIdx tc vc : Nat)
    (h : foldIdx < log.folds.length) :
    ((setFoldSplitInfo log foldIdx tc vc).folds.getD foldIdx dFold).epochs =
      (log.folds.getD foldIdx dFold).epochs := by
  unfold setFoldSplitInfo
  rw [getD_modifyIdx_self _ _ _ h]

theorem trainFoldLoop_ok (foldIdx : Nat) (evs : List EpochEvent) :
    ∀ (epoch : Nat) (best : ℚ) (files : Files) (log : VersionLog),
    evs.all isMetrics = true →
    ∃ files2 log2,
      trainFoldLoop foldIdx evs epoch best files log =
        ⟨.ok (bestAfter best evs), files2, log2⟩ ∧
      files2.bestPt = files.bestPt ∧
      (∀ j, j ≠ foldIdx → files2.foldPt j = files.foldPt j) ∧
      ((bestAfter best evs = best ∧ files2.foldPt foldIdx = files.foldPt foldIdx) ∨
        (∃ e, files2.foldPt foldIdx = some ⟨e, bestAfter best evs, foldIdx⟩)) := by
  induction evs with
  | nil =>
    intro epoch best files log _
    exact ⟨files, log, rfl, rfl, fun j _ => rfl, Or.inl ⟨rfl, rfl⟩⟩
  | cons ev rest ih =>
    intro epoch best files log hall
    cases ev with
    | cancelHit => simp [isMetrics] at hall
    | trainFail => simp [isMetrics] at hall
    | metrics loss dice =>
      have hrest : rest.all isMetrics = true := by simpa [isMetrics] using hall
      rw [bestAfter_cons]
      by_cases hlt : best < dice
      · rw [if_pos hlt]
        obtain ⟨files2, log2, heq, hbp, hne, hself⟩ := ih (epoch + 1) dice
          { files with foldPt := fun j =>
              if j = foldIdx then some ⟨epoch, dice, foldIdx⟩ else files.foldPt j }
          (recordEpoch log foldIdx epoch loss dice) hrest
        refine ⟨files2, log2, ?_, hbp, ?_, ?_⟩
        · simp only [trainFoldLoop]
          rw [if_pos hlt]
          exact heq
        · intro j hj
          rw [hne j hj]
          simp [hj]
        · right
          rcases hself with ⟨hba, hfp⟩ | ⟨e, hfp⟩
          · refine ⟨epoch, ?_⟩
            rw [hfp, hba]
            simp
          · exact ⟨e, hfp⟩
      · rw [if_neg hlt]
        obtain ⟨files2, log2, heq, hbp, hne, hself⟩ := ih (epoch + 1) best files
          (recordEpoch log foldIdx epoch loss dice) hrest
        refine ⟨files2, log2, ?_, hbp, hne, hself⟩
        simp only [trainFoldLoop]
        rw [if_neg hlt]
        exact heq

theorem trainFoldLoop_err (foldIdx : Nat) (evs : List EpochEvent) :
    ∀ (epoch : Nat) (best : ℚ) (files : Files) (log : VersionLog) (e : RunErr),
    raiseKind evs = some e →
    ∃ files2 log2,
      trainFoldLoop foldIdx evs epoch best files log = ⟨.error e, files2, log2⟩ ∧
      log2.folds.length = log.folds.length ∧
      (∀ j, j ≠ foldIdx → log2.folds.getD j dFold = log.folds.getD j dFold) ∧
      (foldIdx < log.folds.length →
        (log2.folds.getD foldIdx dFold).epochs =
          (log.folds.getD foldIdx dFold).epochs ++ recsOf evs epoch) := by
  induction evs with
  | nil =>
    intro epoch best files log e he
    simp [raiseKind] at he
  | cons ev rest ih =>
    intro epoch best files log e he
    cases ev with
    | cancelHit =>
      simp only [raiseKind, Option.some_inj] at he
      subst he
      exact ⟨files, log, rfl, rfl, fun j _ => rfl, fun _ => by simp [recsOf]⟩
    | trainFail =>
      simp only [raiseKind, Option.some_inj] at he
      subst he
      exact ⟨files, log, rfl, rfl, fun j _ => rfl, fun _ => by simp [recsOf]⟩
    | metrics loss dice =>
      have hrest : raiseKind rest = some e := he
      by_cases hlt : best < dice
      · obtain ⟨files2, log2, heq, hlen, hne, hself⟩ := ih (epoch + 1) dice
          { files with foldPt := fun j =>
              if j = foldIdx then some ⟨epoch, dice, foldIdx⟩ else files.foldPt j }
          (recordEpoch log foldIdx epoch loss dice) e hrest
        refine ⟨files2, log2, ?_, ?_, ?_, ?_⟩
        · simp only [trainFoldLoop]
          rw [if_pos hlt]
          exact heq
        · rw [hlen, recordEpoch_folds_length]
        · intro j hj
          rw [hne j hj, recordEpoch_folds_ne log foldIdx epoch loss dice hj]
        · intro hfl
          have hfl2 : foldIdx < (recordEpoch log foldIdx epoch loss dice).folds.length := by
            rw [recordEpoch_folds_length]
            exact hfl
          rw [hself hfl2, recordEpoch_folds_self log foldIdx epoch loss dice hfl,
            List.append_assoc]
          rfl
      · obtain ⟨files2, log2, heq, hlen, hne, hself⟩ := ih (epoch + 1) best files
          (recordEpoch log foldIdx epoch loss dice) e hrest
        refine ⟨files2, log2, ?_, ?_, ?_, ?_⟩
        · simp only [trainFoldLoop]
          rw [if_neg hlt]
          exact heq
        · rw [hlen, recordEpoch_folds_length]
        · intro j hj
          rw [hne j hj, recordEpoch_folds_ne log foldIdx epoch loss dice hj]
        · intro hfl
          have hfl2 : foldIdx < (recordEpoch log foldIdx epoch loss dice).folds.length := by
            rw [recordEpoch_folds_length]
            exact hfl
          rw [hself hfl2, recordEpoch_folds_self log foldIdx epoch loss dice hfl,
            List.append_assoc]
          rfl

theorem runFolds_ok (folds : List (List (String × String))) (evss : List (List EpochEvent)) :
    ∀ (i : Nat) (dices : List ℚ) (bIdx : Int) (bDice : ℚ) (files : Files) (log : VersionLog),
    (∀ evs ∈ evss, evs.all isMetrics = true) →
    ∃ files2 log2,
      runFolds folds evss i dices bIdx bDice files log =
        ⟨none, dices ++ evss.map (bestAfter 0),
          (bestPair (bIdx, bDice) i (evss.map (bestAfter 0))).1,
          (bestPair (bIdx, bDice) i (evss.map (bestAfter 0))).2, files2, log2⟩ ∧
      files2.bestPt = files.bestPt ∧
      (∀ j, j < i → files2.foldPt j = files.foldPt j) ∧
      (∀ k, k < evss.length → 0 < bestAfter 0 (evss.getD k []) →
        ∃ e, files2.foldPt (i + k) = some ⟨e, bestAfter 0 (evss.getD k []), i + k⟩) := by
  induction evss with
  | nil =>
    intro i dices bIdx bDice files log _
    refine ⟨files, log, ?_, rfl, fun j _ => rfl, fun k hk => by simp at hk⟩
    simp [runFolds, bestPair]
  | cons evs rest ih =>
    intro i dices bIdx bDice files log hall
    have hevs : evs.all isMetrics = true := hall evs (List.mem_cons_self _ _)
    have hrest : ∀ e2 ∈ rest, e2.all isMetrics = true :=
      fun e2 he2 => hall e2 (List.mem_cons_of_mem _ he2)
    obtain ⟨filesA, logA, heqA, hbpA, hneA, hselfA⟩ :=
      trainFoldLoop_ok i evs 1 0 files
        (setFoldSplitInfo log i
          ((((List.range N_FOLDS).filter (fun j => j ≠ i)).map
            (fun j => folds.getD j [])).flatten).length
          (folds.getD i []).length) hevs
    have hk0 : ∀ (files2 : Files),
        (∀ j, j < i + 1 → files2.foldPt j = filesA.foldPt j) →
        ∀ k, k < (evs :: rest).length → 0 < bestAfter 0 ((evs :: rest).getD k []) →
        (∀ k2, k2 < rest.length → 0 < bestAfter 0 (rest.getD k2 []) →
          ∃ e, files2.foldPt (i + 1 + k2) =
            some ⟨e, bestAfter 0 (rest.getD k2 []), i + 1 + k2⟩) →
        ∃ e, files2.foldPt (i + k) = some ⟨e, bestAfter 0 ((evs :: rest).getD k []), i + k⟩ := by
      intro files2 hpres2 k hk hk0pos hfp2
      cases k with
      | zero =>
        rw [List.getD_cons_zero] at hk0pos ⊢
        rcases hselfA with ⟨hba, _⟩ | ⟨e, hfpA⟩
        · rw [hba] at hk0pos
          exact absurd hk0pos (by simp)
        · refine ⟨e, ?_⟩
          rw [Nat.add_zero, hpres2 i (Nat.lt_succ_self i), hfpA]
      | succ k =>
        rw [List.getD_cons_succ] at hk0pos ⊢
        have hk2 : k < rest.length := by simpa using hk
        obtain ⟨e, hfp⟩ := hfp2 k hk2 hk0pos
        refine ⟨e, ?_⟩
        rw [show i + (k + 1) = i + 1 + k by omega]
        exact hfp
    by_cases hlt : bDice < bestAfter 0 evs
    · obtain ⟨files2, log2, heq2, hbp2, hpres2, hfp2⟩ :=
        ih (i + 1) (dices ++ [bestAfter 0 evs]) (Int.ofNat i) (bestAfter 0 evs) filesA logA hrest
      refine ⟨files2, log2, ?_, hbp2.trans hbpA, ?_, ?_⟩
      · simp only [runFolds]
        rw [heqA]
        simp only []
        rw [if_pos hlt, heq2, List.map_cons, bestPair_cons]
        simp only []
        rw [if_pos hlt]
        rw [show dices ++ (bestAfter 0 evs :: rest.map (bestAfter 0)) =
          (dices ++ [bestAfter 0 evs]) ++ rest.map (bestAfter 0) from by simp]
      · intro j hj
        rw [hpres2 j (by omega), hneA j (by omega)]
      · intro k hk hpos
        exact hk0 files2 hpres2 k hk hpos hfp2
    · obtain ⟨files2, log2, heq2, hbp2, hpres2, hfp2⟩ :=
        ih (i + 1) (dices ++ [bestAfter 0 evs]) bIdx bDice filesA logA hrest
      refine ⟨files2, log2, ?_, hbp2.trans hbpA, ?_, ?_⟩
      · simp only [runFolds]
        rw [heqA]
        simp only []
        rw [if_neg hlt, heq2, List.map_cons, bestPair_cons]
        simp only []
        rw [if_neg hlt]
        rw [show dices ++ (bestAfter 0 evs :: rest.map (bestAfter 0)) =
          (dices ++ [bestAfter 0 evs]) ++ rest.map (bestAfter 0) from by simp]
      · intro j hj
        rw [hpres2 j (by omega), hneA j (by omega)]
      · intro k hk hpos
        exact hk0 files2 hpres2 k hk hpos hfp2

theorem runFolds_err_first (folds : List (List (String × String))) (evs : List EpochEvent)
    (rest : List (List EpochEvent)) (i : Nat) (dices : List ℚ) (bIdx : Int) (bDice : ℚ)
    (files : Files) (log : VersionLog) (e : RunErr) (he : raiseKind evs = some e) :
    ∃ files2 log2,
      runFolds folds (evs :: rest) i dices bIdx bDice files log =
        ⟨some e, dices, bIdx, bDice, files2, log2⟩ ∧
      log2.folds.length = log.folds.length ∧
      (∀ j, j ≠ i → log2.folds.getD j dFold = log.folds.getD j dFold) ∧
      (i < log.folds.length →
        (log2.folds.getD i dFold).epochs =
          (log.folds.getD i dFold).epochs ++ recsOf evs 1) := by
  obtain ⟨files2, log2, heq, hlen, hne, hself⟩ :=
    trainFoldLoop_err i evs 1 0 files
      (setFoldSplitInfo log i
        ((((List.range N_FOLDS).filter (fun j => j ≠ i)).map
          (fun j => folds.getD j [])).flatten).length
        (folds.getD i []).length) e he
  refine ⟨files2, log2, ?_, ?_, ?_, ?_⟩
  · simp only [runFolds]
    rw [heq]
  · rw [hlen, setFoldSplitInfo_folds_length]
  · intro j hj
    rw [hne j hj, setFoldSplitInfo_folds_ne log i _ _ hj]
  · intro hfl
    have hfl2 : i < (setFoldSplitInfo log i
        ((((List.range N_FOLDS).filter (fun j => j ≠ i)).map
          (fun j => folds.getD j [])).flatten).length
        (folds.getD i []).length).folds.length := by
      rw [setFoldSplitInfo_folds_length]
      exact hfl
    rw [hself hfl2, setFoldSplitInfo_folds_self log i _ _ hfl]

theorem bestPair_spec (scores : List ℚ) :
    ∀ (p : Int × ℚ) (i : Nat),
    (bestPair p i scores = p ∨
      ∃ k, k < scores.length ∧ (bestPair p i scores).1 = Int.ofNat (i + k) ∧
        (bestPair p i scores).2 = scores.getD k 0) ∧
    p.2 ≤ (bestPair p i scores).2 ∧
    (∀ d ∈ scores, d ≤ (bestPair p i scores).2) := by
  induction scores with
  | nil =>
    intro p i
    exact ⟨Or.inl rfl, le_refl _, by simp⟩
  | cons d rest ih =>
    intro p i
    rw [bestPair_cons]
    by_cases hlt : p.2 < d
    · rw [if_pos hlt]
      obtain ⟨hA, hB, hC⟩ := ih (Int.ofNat i, d) (i + 1)
      refine ⟨?_, le_trans (le_of_lt hlt) hB, ?_⟩
      · rcases hA with hA | ⟨k, hk, h1, h2⟩
        · right
          refine ⟨0, by simp, ?_, ?_⟩
          · rw [hA, Nat.add_zero]
          · rw [hA, List.getD_cons_zero]
        · right
          refine ⟨k + 1, by simpa using hk, ?_, ?_⟩
          · rw [h1]
            congr 1
            omega
          · rw [h2, List.getD_cons_succ]
      · intro x hx
        rcases List.mem_cons.mp hx with hx | hx
        · subst hx
          exact hB
        · exact hC x hx
    · rw [if_neg hlt]
      obtain ⟨hA, hB, hC⟩ := ih p (i + 1)
      refine ⟨?_, hB, ?_⟩
      · rcases hA with hA | ⟨k, hk, h1, h2⟩
        · left
          exact hA
        · right
          refine ⟨k + 1, by simpa using hk, ?_, ?_⟩
          · rw [h1]
            congr 1
            omega
          · rw [h2, List.getD_cons_succ]
      · intro x hx
        rcases List.mem_cons.mp hx with hx | hx
        · subst hx
          exact le_trans (not_lt.mp hlt) hB
        · exact hC x hx

theorem bestPair_of_no_improve (scores : List ℚ) :
    ∀ (p : Int × ℚ) (i : Nat), (∀ d ∈ scores, ¬ p.2 < d) → bestPair p i scores = p := by
  induction scores with
  | nil => intro p i _; rfl
  | cons d rest ih =>
    intro p i h
    rw [bestPair_cons, if_neg (h d (List.mem_cons_self _ _))]
    exact ih p (i + 1) (fun x hx => h x (List.mem_cons_of_mem _ hx))

theorem round6_zero : round6 0 = 0 := by
  simp [round6]

theorem createVersionLog_folds_length (v : String) (pairs : List (String × String))
    (now : Nat) : (createVersionLog v pairs now).folds.length = N_FOLDS := by
  simp [createVersionLog]

theorem createVersionLog_folds_epochs (v : String) (pairs : List (String × String))
    (now : Nat) (j : Nat) :
    ((createVersionLog v pairs now).folds.getD j dFold).epochs = [] := by
  rcases j with _ | _ | _ | _ | _ | j <;> rfl

/-- C10: when a run terminates as cancelled or error before any fold has
finished (the per-fold best-score list is empty), finalize still writes a
results block with mean 0.0, an empty per-fold score list, best fold index
0 and best fold score 0.0; the record keeps one entry per configured fold,
the interrupted fold holding its partial epoch history and the unexecuted
folds empty ones — nothing is omitted and nothing raises. -/
theorem finalize_empty_scores (pairs : List (String × String)) (evss : List (List EpochEvent))
    (st : SysState) (now : Nat)
    (hlen : MIN_IMAGES_FOR_TRAINING ≤ pairs.length)
    (hfail : (evss.getD 0 []).all isMetrics = false) :
    ∃ e, (trainModel pairs evss st now).1 = .error e ∧
      (e = .cancelled ∨ e = .runFailed) ∧
      ∃ d2, lookupDir (trainModel pairs evss st now).2.versions
          (getNextVersion (st.versions.map (fun p => p.1))) = some d2 ∧
        ∃ lg, d2.logFile = some lg ∧
          lg.results = some ⟨0, [], 0, 0⟩ ∧
          lg.folds.length = N_FOLDS ∧
          (∀ j, 1 ≤ j → (lg.folds.getD j dFold).epochs = []) ∧
          (lg.folds.getD 0 dFold).epochs = recsOf (evss.getD 0 []) 1 := by
  have hnot : ¬ pairs.length < MIN_IMAGES_FOR_TRAINING := Nat.not_lt.mpr hlen
  have hfresh := fresh_version_not_mem st.versions
  have hraise : ∃ e0, raiseKind (evss.getD 0 []) = some e0 := by
    rcases hk : raiseKind (evss.getD 0 []) with _ | e0
    · rw [raiseKind_none_iff] at hk
      rw [hk] at hfail
      exact absurd hfail (by simp)
    · exact ⟨e0, rfl⟩
  obtain ⟨e0, he0⟩ := hraise
  obtain ⟨files2, log2, heqR, hlenR, hneR, hselfR⟩ :=
    runFolds_err_first (makeFolds pairs N_FOLDS) (evss.getD 0 [])
      [evss.getD 1 [], evss.getD 2 [], evss.getD 3 [], evss.getD 4 []]
      0 [] (-1) 0 st.files
      (createVersionLog (getNextVersion (st.versions.map (fun p => p.1))) pairs now)
      e0 he0
  have h5 : (0 : Nat) < (createVersionLog (getNextVersion
      (st.versions.map (fun p => p.1))) pairs now).folds.length := by
    rw [createVersionLog_folds_length]
    decide
  simp only [trainModel]
  rw [if_neg hnot]
  rw [show (List.range N_FOLDS).map (fun i => evss.getD i []) =
    evss.getD 0 [] :: [evss.getD 1 [], evss.getD 2 [], evss.getD 3 [],
      evss.getD 4 []] from rfl]
  rw [heqR]
  cases e0 with
  | cancelled =>
    simp only []
    refine ⟨.cancelled, rfl, Or.inl rfl, ?_⟩
    rw [show max (-1 : Int) 0 = 0 from by decide]
    obtain ⟨d2, hlk, hmem, hlog⟩ := finalizeVersion_lookup now _ log2 [] 0 ("cancelled")
      files2 st.versions hfresh
    refine ⟨d2, hlk, _, hlog, ?_, ?_, ?_, ?_⟩
    · simp [round6_zero]
    · simp only []
      rw [hlenR, createVersionLog_folds_length]
    · intro j hj
      simp only []
      rw [hneR j (by omega), createVersionLog_folds_epochs]
    · simp only []
      rw [hselfR h5, createVersionLog_folds_epochs]
      simp
  | failed =>
    simp only []
    refine ⟨.runFailed, rfl, Or.inr rfl, ?_⟩
    rw [show max (-1 : Int) 0 = 0 from by decide]
    obtain ⟨d2, hlk, hmem, hlog⟩ := finalizeVersion_lookup now _ log2 [] 0 ("error")
      files2 st.versions hfresh
    refine ⟨d2, hlk, _, hlog, ?_, ?_, ?_, ?_⟩
    · simp [round6_zero]
    · simp only []
      rw [hlenR, createVersionLog_folds_length]
    · intro j hj
      simp only []
      rw [hneR j (by omega), createVersionLog_folds_epochs]
    · simp only []
      rw [hselfR h5, createVersionLog_folds_epochs]
      simp

/-- Witness for C10 at a concrete run cancelled during the first fold,
after one completed epoch. -/
theorem finalize_empty_scores_witness :
    MIN_IMAGES_FOR_TRAINING ≤ wPairs.length ∧
    ([EpochEvent.metrics 1 0, .cancelHit] : List EpochEvent).all isMetrics = false ∧
    (∃ e, (trainModel wPairs [[.metrics 1 0, .cancelHit]] wStateLoaded 7).1 = .error e ∧
      (e = .cancelled ∨ e = .runFailed) ∧
      ∃ d2, lookupDir (trainModel wPairs [[.metrics 1 0, .cancelHit]] wStateLoaded 7).2.versions
          (getNextVersion (wStateLoaded.versions.map (fun p => p.1))) = some d2 ∧
        ∃ lg, d2.logFile = some lg ∧
          lg.results = some ⟨0, [], 0, 0⟩ ∧
          lg.folds.length = N_FOLDS ∧
          (∀ j, 1 ≤ j → (lg.folds.getD j dFold).epochs = []) ∧
          (lg.folds.getD 0 dFold).epochs =
            recsOf ([[.metrics 1 0, .cancelHit]].getD 0 []) 1) :=
  ⟨by decide, by decide,
    finalize_empty_scores wPairs [[.metrics 1 0, .cancelHit]] wStateLoaded 7
      (by decide) (by decide)⟩

/-- C6 counterexample: a run in which every fold completes with a best
score of zero (reachable with an epoch budget of zero) finishes as a
completed run and allocates version v001, yet promotes nothing — the
current best-model slot stays empty and the results block records best
fold index -1, naming no fold.  All five recorded per-fold scores tie at
the maximum (zero), so the fold whose best validation score is highest is
not promoted, contrary to the claim as stated. -/
theorem all_zero_completed_run_promotes_nothing :
    getNextVersion (wStateLoaded.versions.map (fun p => p.1)) = ("v001") ∧
    (∃ q, (trainModel wPairs [] wStateLoaded 7).1 =
      .ok (q, getNextVersion (wStateLoaded.versions.map (fun p => p.1)))) ∧
    wStateLoaded.files.bestPt = none ∧
    (trainModel wPairs [] wStateLoaded 7).2.files.bestPt = none ∧
    ∃ d2, lookupDir (trainModel wPairs [] wStateLoaded 7).2.versions
        (getNextVersion (wStateLoaded.versions.map (fun p => p.1))) = some d2 ∧
      ∃ lg, d2.logFile = some lg ∧
        ∃ res, lg.results = some res ∧
          res.best_fold_idx = -1 ∧
          res.fold_dices = [0, 0, 0, 0, 0] := by
  refine ⟨by decide, ?_⟩
  have hallP : ∀ evs ∈ ([[], [], [], [], []] : List (List EpochEvent)),
      evs.all isMetrics = true := by
    intro evs hevs
    have h : evs = [] := by simpa using hevs
    subst h
    rfl
  have hfresh := fresh_version_not_mem wStateLoaded.versions
  obtain ⟨files2, log2, heq2, hbp2, hpres2, hfp2⟩ :=
    runFolds_ok (makeFolds wPairs N_FOLDS) [[], [], [], [], []] 0 [] (-1) 0
      wStateLoaded.files
      (createVersionLog (getNextVersion (wStateLoaded.versions.map (fun p => p.1)))
        wPairs 7)
      hallP
  rw [List.nil_append] at heq2
  have hno : ∀ d ∈ ([[], [], [], [], []] : List (List EpochEvent)).map (bestAfter 0),
      ¬ ((-1 : Int), (0 : ℚ)).2 < d := by
    intro d hd
    obtain ⟨a, ha, hda⟩ := List.mem_map.mp hd
    have ha2 : a = [] := by simpa using ha
    subst ha2
    rw [← hda]
    simp [bestAfter]
  have hbp0 := bestPair_of_no_improve
    (([[], [], [], [], []] : List (List EpochEvent)).map (bestAfter 0))
    ((-1 : Int), (0 : ℚ)) 0 hno
  simp only [trainModel]
  rw [if_neg (by decide)]
  rw [show (List.range N_FOLDS).map
      (fun i => ([] : List (List EpochEvent)).getD i []) =
    ([[], [], [], [], []] : List (List EpochEvent)) from rfl]
  rw [heq2]
  simp only []
  rw [hbp0]
  rw [if_neg (by decide)]
  obtain ⟨d2, hlk, hmem, hlog⟩ := finalizeVersion_lookup 7 _ log2 _
    ((-1 : Int), (0 : ℚ)).1 ("completed") _ wStateLoaded.versions hfresh
  refine ⟨⟨_, rfl⟩, rfl, ?_, d2, hlk, _, hlog, _, rfl, rfl, ?_⟩
  · simp only [reloadModel]
    rw [hbp2]
    rfl
  · rw [show (([[], [], [], [], []] : List (List EpochEvent)).map (bestAfter 0)) =
      ([0, 0, 0, 0, 0] : List ℚ) from rfl]
    simp [round6_zero]

/-- C6 amended: when all folds complete, the run returns the arithmetic
mean of the per-fold best scores together with the allocated version; the
version record's results block carries that mean (rounded to six decimals
as written) and the full per-fold score list; and provided at least one
fold achieved a positive best score, the fold whose best score is highest
is promoted — its checkpoint is copied into the current best-model slot,
and the recorded best fold index names it.  (In the degenerate all-zero
run no fold checkpoint exists and nothing is promoted.) -/
theorem best_fold_promoted_and_mean_reported
    (pairs : List (String × String)) (evss : List (List EpochEvent))
    (st : SysState) (now : Nat)
    (hlen : MIN_IMAGES_FOR_TRAINING ≤ pairs.length)
    (hall : ∀ evs ∈ evss, evs.all isMetrics = true) :
    (trainModel pairs evss st now).1 =
      .ok ((foldScores evss).sum / (N_FOLDS : ℚ),
        getNextVersion (st.versions.map (fun p => p.1))) ∧
    ∃ d2, lookupDir (trainModel pairs evss st now).2.versions
        (getNextVersion (st.versions.map (fun p => p.1))) = some d2 ∧
      ∃ lg, d2.logFile = some lg ∧
        ∃ res, lg.results = some res ∧
          res.mean_dice = round6 ((foldScores evss).sum / (N_FOLDS : ℚ)) ∧
          res.fold_dices = (foldScores evss).map round6 ∧
          ((∃ s ∈ foldScores evss, 0 < s) →
            ∃ b, b < N_FOLDS ∧ res.best_fold_idx = Int.ofNat b ∧
              ∃ c, (trainModel pairs evss st now).2.files.bestPt = some c ∧
                (trainModel pairs evss st now).2.files.foldPt b = some c ∧
                c.best_dice = (foldScores evss).getD b 0 ∧
                ∀ s ∈ foldScores evss, s ≤ (foldScores evss).getD b 0) := by
  have hnot : ¬ pairs.length < MIN_IMAGES_FOR_TRAINING := Nat.not_lt.mpr hlen
  have hfresh := fresh_version_not_mem st.versions
  have hmemP : ∀ i : Nat, (evss.getD i []).all isMetrics = true := by
    intro i
    by_cases hi : i < evss.length
    · have hmem : evss.getD i [] ∈ evss := by
        rw [List.getD_eq_getElem _ _ hi]
        exact List.getElem_mem hi
      exact hall _ hmem
    · rw [List.getD_eq_default _ _ (Nat.not_lt.mp hi)]
      rfl
  have hallP : ∀ evs ∈ [evss.getD 0 [], evss.getD 1 [], evss.getD 2 [],
      evss.getD 3 [], evss.getD 4 []], evs.all isMetrics = true := by
    intro evs hevs
    simp only [List.mem_cons, List.mem_singleton, List.not_mem_nil, or_false] at hevs
    rcases hevs with rfl | rfl | rfl | rfl | rfl
    · exact hmemP 0
    · exact hmemP 1
    · exact hmemP 2
    · exact hmemP 3
    · exact hmemP 4
  obtain ⟨files2, log2, heq2, hbp2, hpres2, hfp2⟩ :=
    runFolds_ok (makeFolds pairs N_FOLDS)
      [evss.getD 0 [], evss.getD 1 [], evss.getD 2 [], evss.getD 3 [], evss.getD 4 []]
      0 [] (-1) 0 st.files
      (createVersionLog (getNextVersion (st.versions.map (fun p => p.1))) pairs now)
      hallP
  rw [List.nil_append] at heq2
  have hsc : foldScores evss = [evss.getD 0 [], evss.getD 1 [], evss.getD 2 [],
      evss.getD 3 [], evss.getD 4 []].map (bestAfter 0) := rfl
  have hscLen : ([evss.getD 0 [], evss.getD 1 [], evss.getD 2 [],
      evss.getD 3 [], evss.getD 4 []].map (bestAfter 0)).length = N_FOLDS := rfl
  rw [hsc]
  simp only [trainModel]
  rw [if_neg hnot]
  rw [show (List.range N_FOLDS).map (fun i => evss.getD i []) =
    [evss.getD 0 [], evss.getD 1 [], evss.getD 2 [], evss.getD 3 [],
      evss.getD 4 []] from rfl]
  rw [heq2]
  simp only []
  obtain ⟨hA, hB, hC⟩ := bestPair_spec
    ([evss.getD 0 [], evss.getD 1 [], evss.getD 2 [], evss.getD 3 [],
      evss.getD 4 []].map (bestAfter 0)) (-1, 0) 0
  by_cases hpos : ∃ s ∈ [evss.getD 0 [], evss.getD 1 [], evss.getD 2 [],
      evss.getD 3 [], evss.getD 4 []].map (bestAfter 0), 0 < s
  · obtain ⟨s, hs, hspos⟩ := hpos
    have hpos2 : 0 < (bestPair ((-1 : Int), (0 : ℚ)) 0
        ([evss.getD 0 [], evss.getD 1 [], evss.getD 2 [], evss.getD 3 [],
          evss.getD 4 []].map (bestAfter 0))).2 :=
      lt_of_lt_of_le hspos (hC s hs)
    rcases hA with hA | ⟨k, hk, h1, h2⟩
    · rw [hA] at hpos2
      exact absurd hpos2 (by norm_num)
    · rw [Nat.zero_add] at h1
      have hk5 : k < N_FOLDS := by
        rw [← hscLen]
        exact hk
      have hgetD : bestAfter 0 ([evss.getD 0 [], evss.getD 1 [], evss.getD 2 [],
          evss.getD 3 [], evss.getD 4 []].getD k []) =
          ([evss.getD 0 [], evss.getD 1 [], evss.getD 2 [], evss.getD 3 [],
            evss.getD 4 []].map (bestAfter 0)).getD k 0 := by
        rw [List.getD_eq_getElem _ _ hk,
          List.getD_eq_getElem _ _ (by simpa using hk), List.getElem_map]
      have hposk : 0 < bestAfter 0 ([evss.getD 0 [], evss.getD 1 [],
          evss.getD 2 [], evss.getD 3 [], evss.getD 4 []].getD k []) := by
        rw [hgetD, ← h2]
        exact hpos2
      obtain ⟨e, hfp⟩ := hfp2 k (by simpa using hk5) hposk
      rw [Nat.zero_add] at hfp
      rw [h1]
      rw [if_pos (by exact Int.ofNat_nonneg k)]
      rw [show (Int.ofNat k).toNat = k from rfl, hfp]
      simp only []
      obtain ⟨d2, hlk, hmem, hlog⟩ := finalizeVersion_lookup now _ log2 _ (Int.ofNat k)
        ("completed") _ st.versions hfresh
      refine ⟨?_, d2, hlk, _, hlog, _, rfl, ?_, ?_, ?_⟩
      · rw [show ([evss.getD 0 [], evss.getD 1 [], evss.getD 2 [], evss.getD 3 [],
          evss.getD 4 []].map (bestAfter 0)).length = N_FOLDS from rfl]
      · simp only []
        rw [show (List.isEmpty ([evss.getD 0 [], evss.getD 1 [], evss.getD 2 [],
          evss.getD 3 [], evss.getD 4 []].map (bestAfter 0))) = false from rfl]
        rw [show ([evss.getD 0 [], evss.getD 1 [], evss.getD 2 [], evss.getD 3 [],
          evss.getD 4 []].map (bestAfter 0)).length = N_FOLDS from rfl]
        simp
      · rfl
      · intro _
        refine ⟨k, hk5, rfl, ⟨e, bestAfter 0 ([evss.getD 0 [], evss.getD 1 [],
            evss.getD 2 [], evss.getD 3 [], evss.getD 4 []].getD k []), k⟩,
          rfl, hfp, ?_, ?_⟩
        · simp only []
          rw [hgetD]
        · intro s2 hs2
          rw [← h2]
          exact hC s2 hs2
  · have hno : ∀ d ∈ [evss.getD 0 [], evss.getD 1 [], evss.getD 2 [], evss.getD 3 [],
        evss.getD 4 []].map (bestAfter 0), ¬ ((-1 : Int), (0 : ℚ)).2 < d := by
      intro d hd hlt
      simp only [not_exists] at hpos
      exact hpos d ⟨hd, hlt⟩
    have hbp0 := bestPair_of_no_improve
      ([evss.getD 0 [], evss.getD 1 [], evss.getD 2 [], evss.getD 3 [],
        evss.getD 4 []].map (bestAfter 0)) ((-1 : Int), (0 : ℚ)) 0 hno
    rw [hbp0]
    rw [if_neg (by decide)]
    obtain ⟨d2, hlk, hmem, hlog⟩ := finalizeVersion_lookup now _ log2 _ ((-1 : Int), (0 : ℚ)).1
      ("completed") _ st.versions hfresh
    refine ⟨?_, d2, hlk, _, hlog, _, rfl, ?_, ?_, ?_⟩
    · rw [show ([evss.getD 0 [], evss.getD 1 [], evss.getD 2 [], evss.getD 3 [],
        evss.getD 4 []].map (bestAfter 0)).length = N_FOLDS from rfl]
    · simp only []
      rw [show (List.isEmpty ([evss.getD 0 [], evss.getD 1 [], evss.getD 2 [],
        evss.getD 3 [], evss.getD 4 []].map (bestAfter 0))) = false from rfl]
      rw [show ([evss.getD 0 [], evss.getD 1 [], evss.getD 2 [], evss.getD 3 [],
        evss.getD 4 []].map (bestAfter 0)).length = N_FOLDS from rfl]
      simp
    · rfl
    · intro hc
      exact absurd hc hpos

/-- Witness for C6 at a concrete completed run: fold 0 reaches dice 1/2,
the other folds stay at 0. -/
theorem best_fold_promoted_and_mean_reported_witness :
    MIN_IMAGES_FOR_TRAINING ≤ wPairs.length ∧
    (∀ evs ∈ ([[.metrics 1 (1/2)]] : List (List EpochEvent)), evs.all isMetrics = true) ∧
    ((trainModel wPairs [[.metrics 1 (1/2)]] wStateLoaded 7).1 =
      .ok ((foldScores [[.metrics 1 (1/2)]]).sum / (N_FOLDS : ℚ),
        getNextVersion (wStateLoaded.versions.map (fun p => p.1))) ∧
    ∃ d2, lookupDir (trainModel wPairs [[.metrics 1 (1/2)]] wStateLoaded 7).2.versions
        (getNextVersion (wStateLoaded.versions.map (fun p => p.1))) = some d2 ∧
      ∃ lg, d2.logFile = some lg ∧
        ∃ res, lg.results = some res ∧
          res.mean_dice = round6 ((foldScores [[.metrics 1 (1/2)]]).sum / (N_FOLDS : ℚ)) ∧
          res.fold_dices = (foldScores [[.metrics 1 (1/2)]]).map round6 ∧
          ((∃ s ∈ foldScores [[.metrics 1 (1/2)]], 0 < s) →
            ∃ b, b < N_FOLDS ∧ res.best_fold_idx = Int.ofNat b ∧
              ∃ c, (trainModel wPairs [[.metrics 1 (1/2)]] wStateLoaded 7).2.files.bestPt
                  = some c ∧
                (trainModel wPairs [[.metrics 1 (1/2)]] wStateLoaded 7).2.files.foldPt b
                  = some c ∧
                c.best_dice = (foldScores [[.metrics 1 (1/2)]]).getD b 0 ∧
                ∀ s ∈ foldScores [[.metrics 1 (1/2)]],
                  s ≤ (foldScores [[.metrics 1 (1/2)]]).getD b 0)) :=
  ⟨by decide, by decide,
    best_fold_promoted_and_mean_reported wPairs [[.metrics 1 (1/2)]] wStateLoaded 7
      (by decide) (by decide)⟩

end HilServer
